import Mathlib

/-!
Verification of the zigtools release-worker version logic.

This file gives a shallow embedding, in Lean 4, of the core logic of the
release-worker service: the semantic-version dialect
(`src/semantic-version.ts`), the ZLS version selectors
(`src/select-zls-version.ts`), the manifest formatter (`src/shared.ts`) and
the publish validator (`src/publish.ts`), together with theorems about them.

Conventions of the embedding:
* JavaScript numbers that hold array indices or version components are
  modelled as `Nat` (or `Int` where the source lets an index go negative);
  the float rounding of oversize `parseInt` results is outside the model.
* `node:assert` assertions are modelled by returning `none` from an
  `Option`-valued function: `none` means the source would have thrown.
* Database queries are parameters: each selector takes the rows a query
  would return, in the order the SQL clause guarantees.
-/

namespace ReleaseWorker

/-- Result type of `SemanticVersion.order`; the source returns `-1 | 0 | 1`
through the `Order` enum (`lt`, `eq`, `gt`). -/
inductive Order where
  | lt
  | eq
  | gt
deriving DecidableEq, Repr

/-- The version record of `src/semantic-version.ts`. `isRelease` is true
exactly when the parsed string had no `-dev.H+C` suffix; `commitHeight` and
`commitID` are `none` when absent (JS `undefined`). -/
structure SemanticVersion where
  major : Nat
  minor : Nat
  patch : Nat
  isRelease : Bool
  commitHeight : Option Nat
  commitID : Option String
deriving DecidableEq, Repr

instance : Inhabited SemanticVersion := ⟨⟨0, 0, 0, true, none, none⟩⟩

/-- Exact mathematical integer represented by a big-endian decimal digit
run: the intermediate value of `parseInt` before conversion to a double
by `numberValue`. -/
def digitsValue (l : List Char) : Nat :=
  l.foldl (fun a c => 10 * a + (c.toNat - 48)) 0

/-- The ECMAScript "Number value for" a nonnegative mathematical integer
(ES2023 6.1.6.1): round to the nearest IEEE-754 binary64, ties to the
even significand. `parseInt` on a matched digit group returns this value,
so fields at or above 2^53 lose their low bits. Integers at or above
2^1024 - 2^970 become `Infinity` in JS, which `Nat` cannot express;
every theorem reaching such magnitudes carries that bound. -/
def log2Aux : Nat → Nat → Nat
  | 0, _ => 0
  | fuel + 1, n => if n < 2 then 0 else log2Aux fuel (n / 2) + 1

/-- Fuel-based binary logarithm, equal to `Nat.log2` (whose well-founded
recursion the kernel cannot evaluate). -/
def natLog2 (n : Nat) : Nat := log2Aux n n

def numberValue (m : Nat) : Nat :=
  if m < 2 ^ 53 then m
  else
    (if 2 * (m % 2 ^ (natLog2 m - 52)) < 2 ^ (natLog2 m - 52) then m / 2 ^ (natLog2 m - 52)
     else if 2 * (m % 2 ^ (natLog2 m - 52)) > 2 ^ (natLog2 m - 52) then m / 2 ^ (natLog2 m - 52) + 1
     else if m / 2 ^ (natLog2 m - 52) % 2 = 0 then m / 2 ^ (natLog2 m - 52)
     else m / 2 ^ (natLog2 m - 52) + 1) * 2 ^ (natLog2 m - 52)

/-- Match the regex fragment `(0|[1-9]\d*)`: a maximal decimal digit run
without leading zeros; returns its value and the rest of the input. -/
def parseNumField (l : List Char) : Option (Nat × List Char) :=
  match l.takeWhile Char.isDigit with
  | [] => none
  | c :: cs =>
    if c = '0' ∧ cs ≠ [] then none
    else some (digitsValue (c :: cs), l.dropWhile Char.isDigit)

/-- Consume one expected literal character. -/
def expectChar (c : Char) : List Char → Option (List Char)
  | [] => none
  | x :: r => if x = c then some r else none

/-- Consume the literal `-dev.` of the development-suffix group. -/
def dropDevDot : List Char → Option (List Char)
  | '-' :: 'd' :: 'e' :: 'v' :: '.' :: r => some r
  | _ => none

/-- The character class `[0-9a-fA-F]` of the commit-id group. -/
def isHexChar (c : Char) : Bool :=
  c.isDigit || ('a' ≤ c && c ≤ 'f') || ('A' ≤ c && c ≤ 'F')

/-- Recognizer for the anchored regex of `SemanticVersion.parse`:
`^(0|[1-9]\d*)\.(0|[1-9]\d*)\.(0|[1-9]\d*)(?:-dev\.(\d+)\+([0-9a-fA-F]{7,9}))?$`.
The regex is deterministic (each digit run is followed by a non-digit
delimiter), so maximal munch is faithful. -/
def parseChars (l : List Char) : Option SemanticVersion :=
  match parseNumField l with
  | none => none
  | some (major, r1) =>
    match expectChar '.' r1 with
    | none => none
    | some r2 =>
      match parseNumField r2 with
      | none => none
      | some (minor, r3) =>
        match expectChar '.' r3 with
        | none => none
        | some r4 =>
          match parseNumField r4 with
          | none => none
          | some (patch, r5) =>
            match r5 with
            | [] => some ⟨numberValue major, numberValue minor, numberValue patch,
                true, none, none⟩
            | _ :: _ =>
              match dropDevDot r5 with
              | none => none
              | some r6 =>
                match r6.takeWhile Char.isDigit with
                | [] => none
                | d :: ds =>
                  match expectChar '+' (r6.dropWhile Char.isDigit) with
                  | none => none
                  | some r8 =>
                    if 7 ≤ r8.length ∧ r8.length ≤ 9 ∧ r8.all isHexChar then
                      some ⟨numberValue major, numberValue minor, numberValue patch, false,
                        some (numberValue (digitsValue (d :: ds))), some (String.mk r8)⟩
                    else none

/-- `SemanticVersion.parse` of `src/semantic-version.ts`. Each numeric
field is `parseInt` of its digit group, i.e. `numberValue` of the exact
digit-run value; `parseInt` on a matched digit group never produces
`NaN`, so the source asserts after it never fire and the only `null`
results come from the regex. -/
def SemanticVersion.parse (s : String) : Option SemanticVersion :=
  parseChars s.data

/-- Decimal digit character for a value below ten. -/
def digitChar (d : Nat) : Char := Char.ofNat (48 + d)

/-- Fuel-indexed decimal printer; fuel at least the input suffices. -/
def natReprAux : Nat → Nat → List Char
  | 0, _ => []
  | fuel + 1, n =>
    if n < 10 then [digitChar n]
    else natReprAux fuel (n / 10) ++ [digitChar (n % 10)]

/-- Exact decimal numeral of a natural number. Used to build input
numerals, and by `jsNumChars`, whose shortest-decimal search provably
returns the exact numeral for every value below 2^53. -/
def natReprChars (n : Nat) : List Char := natReprAux (n + 1) n

/-- String form of `natReprChars`. -/
def natRepr (n : Nat) : String := String.mk (natReprChars n)

/-- Largest multiple of `p` not above `x`: the decimal on the `p`-grid
just below (or at) `x`. -/
def candBelow (x p : Nat) : Nat := x / p * p

/-- Smallest multiple of `p` strictly above `x` (for `p > 0`). -/
def candAbove (x p : Nat) : Nat := x / p * p + p

/-- ES2023 `Number::toString` step: among the candidate decimals of a
given significant-digit count, choose the one closest in value to the
number; on a tie choose the even significand. Only the two grid
neighbours of `x` can qualify, since the set of decimals rounding to
`x` is an interval around `x`. -/
def pickCand (x p : Nat) : Nat :=
  if x - candBelow x p < candAbove x p - x then candBelow x p
  else if candAbove x p - x < x - candBelow x p then candAbove x p
  else if x / p % 2 = 0 then candBelow x p else candAbove x p

/-- Search of ES2023 `Number::toString` for the smallest significant-digit
count `k`: walk the power-of-ten grids from coarsest (`10^j`) to finest
(`10^0`, the base case, where `x` itself qualifies), returning the first
grid decimal whose Number value is `x`. -/
def shortestCandAux (x : Nat) : Nat → Nat
  | 0 => x
  | j + 1 =>
    if numberValue (candBelow x (10 ^ (j + 1))) = x then
      if numberValue (candAbove x (10 ^ (j + 1))) = x then pickCand x (10 ^ (j + 1))
      else candBelow x (10 ^ (j + 1))
    else if numberValue (candAbove x (10 ^ (j + 1))) = x then candAbove x (10 ^ (j + 1))
    else shortestCandAux x j

/-- The value `s × 10^(n-k)` of ES2023 `Number::toString` (6.1.6.1.20):
the shortest decimal integer whose Number value is the integral double
`x`, ties resolved toward `x` then to the even significand. -/
def shortestDecimal (x : Nat) : Nat :=
  shortestCandAux x ((natReprChars x).length - 1)

/-- Remove the trailing `'0'` characters of a big-endian digit list,
leaving the significant digits `s` of the shortest decimal. -/
def stripTrailZeros (l : List Char) : List Char :=
  (l.reverse.dropWhile (fun c => c = '0')).reverse

/-- `Number.prototype.toString` on an integral double `x`: fixed notation
(the digits of the shortest decimal) while that decimal has at most 21
digits, exponential notation above — `10^21` prints as `"1e+21"`, and
`2^70` as `"1.1805916207174113e+21"` (ES2023 6.1.6.1.20 cases `k ≤ n ≤ 21`
and `n > 21`). -/
def jsNumChars (x : Nat) : List Char :=
  if shortestDecimal x < 10 ^ 21 then natReprChars (shortestDecimal x)
  else
    match stripTrailZeros (natReprChars (shortestDecimal x)) with
    | [] => ['0']
    | d :: ds =>
      if ds = [] then
        d :: 'e' :: '+' :: natReprChars ((natReprChars (shortestDecimal x)).length - 1)
      else
        d :: '.' :: ds ++ 'e' :: '+' :: natReprChars ((natReprChars (shortestDecimal x)).length - 1)

/-- String form of `jsNumChars`: the output of `x.toString()` on an
integral double held in a version field. -/
def jsNumRepr (x : Nat) : String := String.mk (jsNumChars x)

/-- `SemanticVersion.prototype.toString`. Each field is printed by
`Number.prototype.toString` (`jsNumRepr`). The source asserts
`this.commitHeight && this.commitID` on the non-release path: a commit
height of `0` or a missing/empty commit id is falsy and fails the
assertion, modelled as `none`. -/
def SemanticVersion.toString (v : SemanticVersion) : Option String :=
  let a := jsNumRepr v.major ++ "." ++ jsNumRepr v.minor ++ "." ++ jsNumRepr v.patch
  if v.isRelease then some a
  else
    match v.commitHeight, v.commitID with
    | some h, some c =>
      if h ≠ 0 ∧ c ≠ "" then some (a ++ "-dev." ++ jsNumRepr h ++ "+" ++ c)
      else none
    | _, _ => none

/-- `SemanticVersion.order` of `src/semantic-version.ts`: lexicographic on
the numeric triple, then the `undefined` checks on `commitHeight`, then the
numeric comparison of the heights. `commitID` is never read. -/
def SemanticVersion.order (lhs rhs : SemanticVersion) : Order :=
  if lhs.major < rhs.major then .lt
  else if lhs.major > rhs.major then .gt
  else if lhs.minor < rhs.minor then .lt
  else if lhs.minor > rhs.minor then .gt
  else if lhs.patch < rhs.patch then .lt
  else if lhs.patch > rhs.patch then .gt
  else
    match lhs.commitHeight, rhs.commitHeight with
    | none, none => .eq
    | none, some _ => .gt
    | some _, none => .lt
    | some l, some r =>
      if l < r then .lt
      else if l > r then .gt
      else .eq

/-- Map the standard `Ordering` onto the `Order` enum of the source. -/
def ofOrdering : Ordering → Order
  | .lt => .lt
  | .eq => .eq
  | .gt => .gt

/-- Comparison of the optional commit heights as the specification words
it: a tagged version (no development suffix, height absent) is greater
than any development version with the same triple; two development
versions compare by height. -/
def heightCompare : Option Nat → Option Nat → Ordering
  | none, none => .eq
  | none, some _ => .gt
  | some _, none => .lt
  | some a, some b => compare a b

/-- The ordering the specification describes: lexicographic on
`(major, minor, patch)`, then `heightCompare` on the commit heights, never
consulting `commitID`. -/
def orderSpec (lhs rhs : SemanticVersion) : Order :=
  ofOrdering
    ((compare lhs.major rhs.major).then
      ((compare lhs.minor rhs.minor).then
        ((compare lhs.patch rhs.patch).then
          (heightCompare lhs.commitHeight rhs.commitHeight))))

/-- Commit-height comparison as a proposition: an absent height is greater
than any present one. -/
def hLt : Option Nat → Option Nat → Prop
  | none, none => False
  | none, some _ => False
  | some _, none => True
  | some x, some y => x < y

/-- Commit-height equality as a proposition. -/
def hEq : Option Nat → Option Nat → Prop
  | none, none => True
  | none, some _ => False
  | some _, none => False
  | some x, some y => x = y

/-- Arithmetic form of the strict comparison decided by `SemanticVersion.order`. -/
def ltKey (a b : SemanticVersion) : Prop :=
  a.major < b.major ∨ (a.major = b.major ∧ (a.minor < b.minor ∨ (a.minor = b.minor ∧ (a.patch < b.patch ∨ (a.patch = b.patch ∧ hLt a.commitHeight b.commitHeight)))))

/-- Arithmetic form of the equality decided by `SemanticVersion.order`. -/
def eqKey (a b : SemanticVersion) : Prop :=
  a.major = b.major ∧ a.minor = b.minor ∧ a.patch = b.patch ∧ hEq a.commitHeight b.commitHeight

/-- The `VersionCompatibility` enum of `src/shared.ts`. -/
inductive VersionCompatibility where
  | none
  | onlyRuntime
  | full
deriving DecidableEq, Repr

/-- The compatibility values a selector request may carry; the source types
this as `Exclude<VersionCompatibility, VersionCompatibility.None>`. -/
inductive ReqCompatibility where
  | onlyRuntime
  | full
deriving DecidableEq, Repr

/-- The `Extension` union of `src/shared.ts`. -/
inductive Extension where
  | tarXz
  | tarGz
  | zip
deriving DecidableEq, Repr

/-- Wire form of an `Extension`. -/
def Extension.text : Extension → String
  | .tarXz => "tar.xz"
  | .tarGz => "tar.gz"
  | .zip => "zip"

/-- The `ReleaseArtifact` record of `src/shared.ts`. -/
structure ReleaseArtifact where
  os : String
  arch : String
  version : String
  extension : Extension
  fileShasum : String
  fileSize : Nat
deriving DecidableEq, Repr

/-- The `D2JsonData` record of `src/shared.ts`; `testedZigVersions` is a JSON
object, modelled as an association list in key-insertion order. -/
structure D2JsonData where
  date : Nat
  zlsVersion : String
  zigVersion : String
  minimumBuildZigVersion : String
  minimumRuntimeZigVersion : String
  testedZigVersions : List (String × VersionCompatibility)
  artifacts : List ReleaseArtifact
deriving DecidableEq, Repr

/-- The `SelectVersionFailureCode` enum of `src/select-zls-version.ts`. -/
inductive SelectVersionFailureCode where
  | Unsupported
  | DevelopmentBuildUnsupported
  | DevelopmentBuildIncompatible
  | TaggedReleaseIncompatible
deriving DecidableEq, Repr

/-- Numeric code of each failure, as serialized on the wire. -/
def SelectVersionFailureCode.code : SelectVersionFailureCode → Nat
  | .Unsupported => 0
  | .DevelopmentBuildUnsupported => 1
  | .DevelopmentBuildIncompatible => 2
  | .TaggedReleaseIncompatible => 3

/-- One element of the array that `selectOnDevelopmentBuild` builds from
`testedZigVersions` and hands to `isVersionEnclosedInFailure`. -/
structure TestedVersion where
  version : SemanticVersion
  isSuccess : Bool
deriving DecidableEq, Repr

instance : Inhabited TestedVersion := ⟨⟨default, false⟩⟩

/-- Indexing into the tested array; the source indexes with a JS number that
the surrounding asserts keep within bounds. -/
def nthTested (testedVersions : List TestedVersion) (i : Int) : TestedVersion :=
  testedVersions.getD i.toNat default

/-- Result of the binary search once `start > end`: the source swaps the two
indices and returns `!tested[start].isSuccess && !tested[end].isSuccess`. -/
def bracketResult (testedVersions : List TestedVersion) (start end_ : Int) : Bool :=
  !(nthTested testedVersions end_).isSuccess && !(nthTested testedVersions start).isSuccess

/-- The `while (start <= end)` binary search of `isVersionEnclosedInFailure`.
Integer division on `Int` here is floor division, exactly
`Math.floor((start + end) / 2)`. The
fuel argument only bounds the iteration count; fuel at least
`end - start + 1` makes it equal to the source loop, and the callers below
always pass enough. -/
def searchLoop (testedVersions : List TestedVersion) (version : SemanticVersion) : Nat → Int → Int → Bool
  | 0, start, end_ => bracketResult testedVersions start end_
  | fuel + 1, start, end_ =>
    if start ≤ end_ then
      let mid : Int := (start + end_) / 2
      match SemanticVersion.order (nthTested testedVersions mid).version version with
      | .lt => searchLoop testedVersions version fuel (mid + 1) end_
      | .eq => !(nthTested testedVersions mid).isSuccess
      | .gt => searchLoop testedVersions version fuel start (mid - 1)
    else bracketResult testedVersions start end_

/-- `isVersionEnclosedInFailure` of `src/select-zls-version.ts`: two fast
paths against the oldest and newest tested versions, then the binary search.
The source asserts a non-empty input; every caller (and every theorem below)
supplies one. -/
def isVersionEnclosedInFailure (testedVersions : List TestedVersion) (version : SemanticVersion) : Bool :=
  match SemanticVersion.order version (nthTested testedVersions 0).version with
  | .lt | .eq => !(nthTested testedVersions 0).isSuccess
  | .gt =>
    match SemanticVersion.order version
        (nthTested testedVersions ((testedVersions.length : Int) - 1)).version with
    | .eq | .gt => !(nthTested testedVersions ((testedVersions.length : Int) - 1)).isSuccess
    | .lt =>
      searchLoop testedVersions version testedVersions.length 0 ((testedVersions.length : Int) - 1)

/-- Comparator test: the tested version is at most the requested one. -/
def atMostVersion (version : SemanticVersion) (t : TestedVersion) : Bool :=
  match SemanticVersion.order t.version version with
  | .gt => false
  | _ => true

/-- Comparator test: the tested version is at least the requested one. -/
def atLeastVersion (version : SemanticVersion) (t : TestedVersion) : Bool :=
  match SemanticVersion.order t.version version with
  | .lt => false
  | _ => true

/-- The naive reference reading of the specification: the nearest tested
neighbor at or below `version` (the last one at most it) and the nearest
tested neighbor at or above it (the first one at least it) must both be
failures; a missing neighbor does not block, and an exactly equal entry
counts as both neighbors. -/
def naiveEnclosedInFailure (testedVersions : List TestedVersion) (version : SemanticVersion) : Bool :=
  let left := (testedVersions.filter (atMostVersion version)).getLast?
  let right := (testedVersions.filter (atLeastVersion version)).head?
  (match left with
   | some t => !t.isSuccess
   | none => true) &&
  (match right with
   | some t => !t.isSuccess
   | none => true)

/-- Insert keeping elements that compare `le` to `x` in front; used to model
`Array.prototype.sort`, which is a stable sort. -/
def insertLe {α : Type} (le : α → α → Bool) (x : α) : List α → List α
  | [] => [x]
  | y :: ys => if le y x then y :: insertLe le x ys else x :: y :: ys

/-- Stable insertion sort: elements are taken left to right and each lands
after every earlier element that is `le` to it, which matches the stable
`Array.prototype.sort` with a three-way comparator. -/
def sortLe {α : Type} (le : α → α → Bool) (l : List α) : List α :=
  l.foldl (fun acc x => insertLe le x acc) []

/-- Comparator passed to the sort in `selectOnDevelopmentBuild`: the
comparator result of `SemanticVersion.order` interpreted as at-most. -/
def testedLe (lhs rhs : TestedVersion) : Bool :=
  match SemanticVersion.order lhs.version rhs.version with
  | .gt => false
  | _ => true

/-- One step of the `.map` in `selectOnDevelopmentBuild`: parse the tested
Zig version string (asserted non-null) and decide success under the
requested compatibility. -/
def testedEntryOf (compatibility : ReqCompatibility) (e : String × VersionCompatibility) : Option TestedVersion :=
  match SemanticVersion.parse e.1 with
  | none => none
  | some semver =>
    let isSuccess : Bool :=
      match e.2 with
      | .none => false
      | .onlyRuntime =>
        match compatibility with
        | .onlyRuntime => true
        | .full => false
      | .full => true
    some ⟨semver, isSuccess⟩

/-- The tested-version array of `selectOnDevelopmentBuild`: map each entry of
`testedZigVersions` through `testedEntryOf`, then sort ascending. -/
def toTestedVersions (data : D2JsonData) (compatibility : ReqCompatibility) : Option (List TestedVersion) :=
  match data.testedZigVersions.mapM (testedEntryOf compatibility) with
  | none => none
  | some entries => some (sortLe testedLe entries)

/-- `selectMinimumZigVersion` of `src/select-zls-version.ts`: both minimum
version strings are parsed (asserted non-null); `full` takes the larger of
the two, `onlyRuntime` the runtime minimum. -/
def selectMinimumZigVersion (data : D2JsonData) (compatibility : ReqCompatibility) : Option SemanticVersion :=
  match SemanticVersion.parse data.minimumBuildZigVersion, SemanticVersion.parse data.minimumRuntimeZigVersion with
  | some minBuildZigVersion, some minRuntimeZigVersion =>
    some
      (match compatibility with
       | .full =>
         if SemanticVersion.order minBuildZigVersion minRuntimeZigVersion = .lt then minRuntimeZigVersion
         else minBuildZigVersion
       | .onlyRuntime => minRuntimeZigVersion)
  | _, _ => none

/-- The candidate list of `selectOnDevelopmentBuild`: the development
releases of the requested minor when any exist, otherwise the latest tagged
release alone (the tagged-handoff case). -/
def releasesOf (developmentReleases : List D2JsonData) (latestTaggedRelease : Option D2JsonData) : List D2JsonData :=
  if developmentReleases.isEmpty then
    match latestTaggedRelease with
    | some r => [r]
    | none => []
  else developmentReleases

/-- The `for (const entry of releases)` loop of `selectOnDevelopmentBuild`:
each entry asserts a non-empty artifact list, computes its effective
minimum, and replaces the selection unless the requested Zig version is
below that minimum. -/
def selectEntryLoop (zigVersion : SemanticVersion) (compatibility : ReqCompatibility) : List D2JsonData → D2JsonData → Option D2JsonData
  | [], selectedEntry => some selectedEntry
  | entry :: rest, selectedEntry =>
    if entry.artifacts.isEmpty then none
    else
      match selectMinimumZigVersion entry compatibility with
      | none => none
      | some minimumZigVersion =>
        match SemanticVersion.order zigVersion minimumZigVersion with
        | .lt => selectEntryLoop zigVersion compatibility rest selectedEntry
        | _ => selectEntryLoop zigVersion compatibility rest entry

/-- `selectOnDevelopmentBuild` of `src/select-zls-version.ts`. The two
database queries are parameters: `developmentReleases` is the
`devByMinor` result (commit height ascending) and `latestTaggedRelease`
the first row of `allTaggedDesc`. -/
def selectOnDevelopmentBuild (developmentReleases : List D2JsonData) (latestTaggedRelease : Option D2JsonData) (zigVersion : SemanticVersion) (compatibility : ReqCompatibility) : Option (D2JsonData ⊕ SelectVersionFailureCode) :=
  if zigVersion.isRelease then none
  else
    match releasesOf developmentReleases latestTaggedRelease with
    | [] => some (.inr .DevelopmentBuildUnsupported)
    | oldestRelease :: rest =>
      match selectMinimumZigVersion oldestRelease compatibility with
      | none => none
      | some oldestMinZigVersion =>
        if SemanticVersion.order zigVersion oldestMinZigVersion = .lt then
          if developmentReleases.isEmpty then some (.inr .DevelopmentBuildUnsupported)
          else some (.inr .Unsupported)
        else
          match selectEntryLoop zigVersion compatibility (oldestRelease :: rest) oldestRelease with
          | none => none
          | some selectedEntry =>
            if selectedEntry.testedZigVersions.lookup selectedEntry.zigVersion ≠ some VersionCompatibility.full then none
            else
              match toTestedVersions selectedEntry compatibility with
              | none => none
              | some testedZigVersions =>
                if testedZigVersions.isEmpty then none
                else if isVersionEnclosedInFailure testedZigVersions zigVersion then
                  some (.inr .DevelopmentBuildIncompatible)
                else some (.inl selectedEntry)

/-- `selectOnTaggedRelease` of `src/select-zls-version.ts`. `taggedByMinor`
is the patch-descending query for the requested minor; `oldestTaggedRelease`
the first row of `allTaggedAsc`. -/
def selectOnTaggedRelease (taggedByMinor : List D2JsonData) (oldestTaggedRelease : Option D2JsonData) (zigVersion : SemanticVersion) : Option (D2JsonData ⊕ SelectVersionFailureCode) :=
  if !zigVersion.isRelease then none
  else
    match taggedByMinor with
    | selectedRelease :: _ => some (.inl selectedRelease)
    | [] =>
      match oldestTaggedRelease with
      | some oldest =>
        match SemanticVersion.parse oldest.minimumRuntimeZigVersion with
        | none => none
        | some oldestMinRuntimeZigVersion =>
          if SemanticVersion.order zigVersion oldestMinRuntimeZigVersion = .lt then
            some (.inr .Unsupported)
          else some (.inr .TaggedReleaseIncompatible)
      | none => some (.inr .TaggedReleaseIncompatible)

/-- The target-format tag returned by `targetFormat` in `src/shared.ts`
(the source uses the strings `arch-os` and `os-arch`). -/
inductive TargetFormat where
  | archOs
  | osArch
deriving DecidableEq, Repr

/-- `targetFormat` of `src/shared.ts`: artifact versions ordered below
`0.15.0` use the old `os-arch` file-name order, the rest `arch-os`. The
parse of the pivot string is asserted non-null. -/
def targetFormat (version : SemanticVersion) : Option TargetFormat :=
  match SemanticVersion.parse "0.15.0" with
  | none => none
  | some osArchOrderSwapVersion =>
    match SemanticVersion.order version osArchOrderSwapVersion with
    | .lt => some .osArch
    | _ => some .archOs

/-- The `ArtifactEntry` wire record of `src/shared.ts`. -/
structure ArtifactEntry where
  tarball : String
  shasum : String
  size : String
deriving DecidableEq, Repr

/-- The body of the `for` loop of `artifactsToRecord`, with the `targets`
object modelled as an association list in key-insertion order. The asserts
(duplicate target key, 64-character shasum) are modelled as `none`. -/
def artifactsLoop (R2_PUBLIC_URL : String) : List ReleaseArtifact → List (String × ArtifactEntry) → Option (List (String × ArtifactEntry))
  | [], targets => some targets
  | artifact :: rest, targets =>
    match artifact.extension with
    | .tarGz => artifactsLoop R2_PUBLIC_URL rest targets
    | _ =>
      match SemanticVersion.parse artifact.version with
      | none => none
      | some version =>
        match targetFormat version with
        | none => none
        | some fmt =>
          if (targets.lookup (artifact.arch ++ "-" ++ artifact.os)).isSome then none
          else if artifact.fileShasum.length ≠ 64 then none
          else
            artifactsLoop R2_PUBLIC_URL rest
              (targets ++ [(artifact.arch ++ "-" ++ artifact.os,
                ⟨R2_PUBLIC_URL ++ "/zls-" ++
                   (match fmt with
                    | .archOs => artifact.arch ++ "-" ++ artifact.os
                    | .osArch => artifact.os ++ "-" ++ artifact.arch) ++
                   "-" ++ artifact.version ++ "." ++ artifact.extension.text,
                 artifact.fileShasum,
                 natRepr artifact.fileSize⟩)])

/-- `artifactsToRecord` of `src/shared.ts` (the variant with the 0.15.0
file-name flip); asserts a non-empty artifact list. -/
def artifactsToRecord (R2_PUBLIC_URL : String) (artifacts : List ReleaseArtifact) : Option (List (String × ArtifactEntry)) :=
  if artifacts.isEmpty then none
  else artifactsLoop R2_PUBLIC_URL artifacts []

/-- The manifest entry the specification describes for one artifact whose
version string parses to `version`: key `arch-os`, tarball file name in
`os-arch` order below `0.15.0` and `arch-os` order from `0.15.0` on. -/
def manifestEntry (R2_PUBLIC_URL : String) (artifact : ReleaseArtifact) (version : SemanticVersion) : String × ArtifactEntry :=
  (artifact.arch ++ "-" ++ artifact.os,
   ⟨R2_PUBLIC_URL ++ "/zls-" ++
      (match SemanticVersion.order version ⟨0, 15, 0, true, none, none⟩ with
       | .lt => artifact.os ++ "-" ++ artifact.arch
       | _ => artifact.arch ++ "-" ++ artifact.os) ++
      "-" ++ artifact.version ++ "." ++ artifact.extension.text,
    artifact.fileShasum,
    natRepr artifact.fileSize⟩)

/-- Metadata of one artifact in a JSON publish request. -/
structure ArtifactMetadata where
  shasum : String
  size : Nat
deriving DecidableEq, Repr

/-- The `PublishRequest` body of `src/publish.ts`, after JSON decoding and
the structural field checks; `artifacts` is keyed by file name in
key order. -/
structure PublishRequest where
  zlsVersion : String
  zigVersion : String
  minimumBuildZigVersion : String
  minimumRuntimeZigVersion : String
  compatibility : VersionCompatibility
  artifacts : List (String × ArtifactMetadata)
deriving DecidableEq, Repr

/-- One row of the `ZLSReleases` table. -/
structure ZLSReleaseRow where
  zlsVersion : String
  major : Nat
  minor : Nat
  patch : Nat
  isRelease : Bool
  buildID : Option Nat
  jsonData : D2JsonData
deriving DecidableEq, Repr

/-- The typed 400/418 rejections of `handlePublish`. -/
inductive PublishError where
  | invalidZlsVersion
  | invalidZigVersion
  | invalidMinimumBuildZigVersion
  | invalidMinimumRuntimeZigVersion
  | taggedZlsNeedsTaggedZig
  | devPatchNotZero
  | badArtifactName
  | invalidArtifactVersion
  | emptyArtifact
  | invalidShasum
  | extensionSetMismatch
  | taggedReleaseNeedsArtifacts
  | teapot
  | taggedReleaseNeedsFullCompatibility
  | compatibilityMismatch
  | mixedArtifactVersions
  | artifactVersionMismatch
  | newFailedBuild
  | conflictingDevelopmentCommit
deriving DecidableEq, Repr

/-- Split a character list at its first `-`, the way the lazy groups
`(.*?)-` of the artifact-name regex consume input. -/
def splitAtDash : List Char → Option (List Char × List Char)
  | [] => none
  | '-' :: r => some ([], r)
  | c :: r =>
    match splitAtDash r with
    | none => none
    | some (a, b) => some (c :: a, b)

/-- Match the artifact-name regex
`^zls-(.*?)-(.*?)-(.*)\.(tar\.xz|tar\.gz|zip)$`: literal `zls-`, then the
two lazy groups stop at the first two dashes, the greedy version group
takes the rest up to the extension suffix. Returns `(os, arch, version,
extension)`. -/
def parseArtifactName (key : String) : Option (String × String × String × Extension) :=
  match key.data with
  | 'z' :: 'l' :: 's' :: '-' :: rest =>
    match splitAtDash rest with
    | none => none
    | some (os, rest2) =>
      match splitAtDash rest2 with
      | none => none
      | some (arch, rest3) =>
        if (".tar.xz".data).isSuffixOf rest3 then
          some (String.mk os, String.mk arch, String.mk (rest3.take (rest3.length - 7)), Extension.tarXz)
        else if (".tar.gz".data).isSuffixOf rest3 then
          some (String.mk os, String.mk arch, String.mk (rest3.take (rest3.length - 7)), Extension.tarGz)
        else if (".zip".data).isSuffixOf rest3 then
          some (String.mk os, String.mk arch, String.mk (rest3.take (rest3.length - 4)), Extension.zip)
        else none
  | _ => none

/-- The artifact loop of `handlePublish`: parse each file name, check the
version string, the non-zero size, and the shasum shape (64 characters that
decode to 32 bytes, that is 64 hex digits). -/
def buildReleaseArtifacts : List (String × ArtifactMetadata) → Except PublishError (List ReleaseArtifact)
  | [] => .ok []
  | (key, meta) :: rest =>
    match parseArtifactName key with
    | none => .error .badArtifactName
    | some (os, arch, version, extension) =>
      if SemanticVersion.parse version = none then .error .invalidArtifactVersion
      else if meta.size = 0 then .error .emptyArtifact
      else if meta.shasum.length = 64 ∧ meta.shasum.data.all isHexChar then
        match buildReleaseArtifacts rest with
        | .error e => .error e
        | .ok arts => .ok (⟨os, arch, version, extension, meta.shasum, meta.size⟩ :: arts)
      else .error .invalidShasum

instance : Inhabited ReleaseArtifact := ⟨⟨"", "", "", Extension.tarXz, "", 0⟩⟩

/-- Grouping key of `groupedArtifacts`: the artifact file name without its
extension. -/
def groupKeyOf (artifact : ReleaseArtifact) : String :=
  "zls-" ++ artifact.os ++ "-" ++ artifact.arch ++ "-" ++ artifact.version

/-- Add one artifact to the grouped map, which the source keeps in
first-occurrence key order. -/
def addToGroups (groups : List (String × List ReleaseArtifact)) (artifact : ReleaseArtifact) : List (String × List ReleaseArtifact) :=
  if groups.any (fun g => g.1 == groupKeyOf artifact) then
    groups.map (fun g => if g.1 = groupKeyOf artifact then (g.1, g.2 ++ [artifact]) else g)
  else groups ++ [(groupKeyOf artifact, [artifact])]

/-- The `groupedArtifacts` object of `handlePublish`. -/
def groupedArtifacts (artifacts : List ReleaseArtifact) : List (String × List ReleaseArtifact) :=
  artifacts.foldl addToGroups []

/-- Expected extension set of one group: `zip` alone on windows, both tar
flavors elsewhere. Groups are built from their own first element, so the
empty case is unreachable. -/
def expectedExtensions (items : List ReleaseArtifact) : List Extension :=
  match items with
  | [] => [.tarXz, .tarGz]
  | i :: _ => if i.os = "windows" then [.zip] else [.tarXz, .tarGz]

/-- The per-group extension-set comparison of `handlePublish`: same length
and mutual containment. -/
def extensionSetMatches (items : List ReleaseArtifact) : Bool :=
  let extensions := items.map (fun a => a.extension)
  let expected := expectedExtensions items
  extensions.length == expected.length &&
    extensions.all (fun e => expected.contains e) &&
    expected.all (fun e => extensions.contains e)

/-- Set or insert one key in an association list, the effect of
`json_patch` on one nested key. -/
def assocSet {β : Type} (l : List (String × β)) (k : String) (v : β) : List (String × β) :=
  if l.any (fun e => e.1 == k) then l.map (fun e => if e.1 = k then (k, v) else e)
  else l ++ [(k, v)]

/-- The `INSERT OR IGNORE` of the batch in `handlePublish`: a new row is
appended only when no row with this ZLS version exists. -/
def insertOrIgnore (db : List ZLSReleaseRow) (zlsVersion : SemanticVersion) (req : PublishRequest) (newEntryValue : D2JsonData) : List ZLSReleaseRow :=
  if db.any (fun row => row.zlsVersion == req.zlsVersion) then db
  else
    db ++ [⟨req.zlsVersion, zlsVersion.major, zlsVersion.minor, zlsVersion.patch,
      zlsVersion.isRelease, zlsVersion.commitHeight, newEntryValue⟩]

/-- The `json_patch` update of the batch: merge one key into
`testedZigVersions` of the row with this ZLS version; no other field of
the row changes. -/
def patchTestedRow (req : PublishRequest) (row : ZLSReleaseRow) : ZLSReleaseRow :=
  if row.zlsVersion = req.zlsVersion then
    let data := row.jsonData
    { row with jsonData :=
        { data with testedZigVersions :=
            assocSet data.testedZigVersions req.zigVersion req.compatibility } }
  else row

/-- The batched writes of `handlePublish`: `INSERT OR IGNORE` of the new
row, then the `json_patch` update. -/
def applyBatch (db : List ZLSReleaseRow) (zlsVersion : SemanticVersion) (req : PublishRequest) (newEntryValue : D2JsonData) : List ZLSReleaseRow :=
  (insertOrIgnore db zlsVersion req newEntryValue).map (patchTestedRow req)

/-- The two version-shape checks of `handlePublish` that run before the
artifact loop: a tagged ZLS needs a tagged Zig, and a development ZLS must
have patch 0. -/
def preArtifactChecks (zlsVersion zigVersion : SemanticVersion) : Option PublishError :=
  if zlsVersion.isRelease ∧ ¬ zigVersion.isRelease then some .taggedZlsNeedsTaggedZig
  else if ¬ zlsVersion.isRelease ∧ zlsVersion.patch ≠ 0 then some .devPatchNotZero
  else none

/-- The checks of `handlePublish` that run after the artifact loop, in
source order; the last one is the existing-record requirement for a
publish without artifacts. -/
def postArtifactChecks (db : List ZLSReleaseRow) (req : PublishRequest) (zlsVersion : SemanticVersion) (releaseArtifacts : List ReleaseArtifact) : Option PublishError :=
  if ¬ (groupedArtifacts releaseArtifacts).all (fun g => extensionSetMatches g.2) then
    some .extensionSetMismatch
  else if zlsVersion.isRelease ∧ releaseArtifacts.isEmpty then some .taggedReleaseNeedsArtifacts
  else if zlsVersion.major ≠ 0 then some .teapot
  else if zlsVersion.isRelease ∧ req.compatibility ≠ .full then
    some .taggedReleaseNeedsFullCompatibility
  else if releaseArtifacts.isEmpty != (req.compatibility == VersionCompatibility.none) then
    some .compatibilityMismatch
  else if ¬ releaseArtifacts.isEmpty ∧
      ¬ releaseArtifacts.all (fun a => a.version == (releaseArtifacts.headD default).version) then
    some .mixedArtifactVersions
  else if ¬ releaseArtifacts.isEmpty ∧ (releaseArtifacts.headD default).version ≠ req.zlsVersion then
    some .artifactVersionMismatch
  else if releaseArtifacts.isEmpty ∧ ¬ db.any (fun row => row.zlsVersion == req.zlsVersion) then
    some .newFailedBuild
  else none

/-- The `newEntryValue` object of `handlePublish`. -/
def newEntryOf (now : Nat) (req : PublishRequest) (releaseArtifacts : List ReleaseArtifact) : D2JsonData :=
  { date := now
  , zlsVersion := req.zlsVersion
  , zigVersion := req.zigVersion
  , minimumBuildZigVersion := req.minimumBuildZigVersion
  , minimumRuntimeZigVersion := req.minimumRuntimeZigVersion
  , testedZigVersions := []
  , artifacts := releaseArtifacts }

/-- The write phase of `handlePublish`: for a development ZLS the
`devByQuad` lookup (asserting a present commit height) may still reject a
conflicting commit id; otherwise the batch is applied. The
`artifactsAlreadyExist` flag only steers blob uploads, which are outside
the stored state. -/
def publishWrites (db : List ZLSReleaseRow) (now : Nat) (req : PublishRequest) (zlsVersion : SemanticVersion) (releaseArtifacts : List ReleaseArtifact) : Option (Except PublishError (List ZLSReleaseRow)) :=
  if zlsVersion.isRelease then
    some (.ok (applyBatch db zlsVersion req (newEntryOf now req releaseArtifacts)))
  else
    match zlsVersion.commitHeight with
    | none => none
    | some commitHeight =>
      match db.find? (fun row => !row.isRelease && row.major == zlsVersion.major &&
          row.minor == zlsVersion.minor && row.patch == zlsVersion.patch &&
          row.buildID == some commitHeight) with
      | some row =>
        if req.zlsVersion ≠ row.zlsVersion then some (.error .conflictingDevelopmentCommit)
        else some (.ok (applyBatch db zlsVersion req (newEntryOf now req releaseArtifacts)))
      | none => some (.ok (applyBatch db zlsVersion req (newEntryOf now req releaseArtifacts)))

/-- `handlePublish` of `src/publish.ts` (the JSON request variant), from the
field validation onward; transport concerns (method, auth, body decoding,
blob writes, index materialization) do not touch the stored rows and are
out of the model. The outer `Option` is `none` exactly when a source
`assert` would throw; `Except.error` is a 4xx rejection before any write. -/
def handlePublish (db : List ZLSReleaseRow) (now : Nat) (req : PublishRequest) : Option (Except PublishError (List ZLSReleaseRow)) :=
  match SemanticVersion.parse req.zlsVersion with
  | none => some (.error .invalidZlsVersion)
  | some zlsVersion =>
  match SemanticVersion.parse req.zigVersion with
  | none => some (.error .invalidZigVersion)
  | some zigVersion =>
  match SemanticVersion.parse req.minimumBuildZigVersion with
  | none => some (.error .invalidMinimumBuildZigVersion)
  | some _ =>
  match SemanticVersion.parse req.minimumRuntimeZigVersion with
  | none => some (.error .invalidMinimumRuntimeZigVersion)
  | some _ =>
  match preArtifactChecks zlsVersion zigVersion with
  | some e => some (.error e)
  | none =>
  match buildReleaseArtifacts req.artifacts with
  | .error e => some (.error e)
  | .ok releaseArtifacts =>
  match postArtifactChecks db req zlsVersion releaseArtifacts with
  | some e => some (.error e)
  | none => publishWrites db now req zlsVersion releaseArtifacts

def belowFloorDevRecord : D2JsonData :=
  { date := 0
  , zlsVersion := "0.12.0-dev.1+aaaaaaa"
  , zigVersion := "0.12.0-dev.5+bbbbbbb"
  , minimumBuildZigVersion := "0.12.0"
  , minimumRuntimeZigVersion := "0.12.0"
  , testedZigVersions := [("0.12.0-dev.5+bbbbbbb", VersionCompatibility.full)]
  , artifacts := [⟨"linux", "x86_64", "0.12.0-dev.1+aaaaaaa", Extension.tarXz,
      "aaaaaaaaaaaaaaaaaaaaaaaaaaaaaaaaaaaaaaaaaaaaaaaaaaaaaaaaaaaaaaaa", 1⟩] }

def zigBelowFloor : SemanticVersion := ⟨0, 12, 0, false, some 1, some "ccccccc"⟩

def sha64x : String := "aaaaaaaaaaaaaaaaaaaaaaaaaaaaaaaaaaaaaaaaaaaaaaaaaaaaaaaaaaaaaaaa"

def onlyRuntimePublishRequest : PublishRequest :=
  { zlsVersion := "0.13.0-dev.1+aaaaaaa"
  , zigVersion := "0.13.0-dev.5+bbbbbbb"
  , minimumBuildZigVersion := "0.13.0"
  , minimumRuntimeZigVersion := "0.13.0"
  , compatibility := VersionCompatibility.onlyRuntime
  , artifacts :=
      [ ("zls-linux-x86_64-0.13.0-dev.1+aaaaaaa.tar.xz", ⟨sha64x, 1⟩)
      , ("zls-linux-x86_64-0.13.0-dev.1+aaaaaaa.tar.gz", ⟨sha64x, 1⟩) ] }

def onlyRuntimePublishedRow : ZLSReleaseRow :=
  { zlsVersion := "0.13.0-dev.1+aaaaaaa"
  , major := 0
  , minor := 13
  , patch := 0
  , isRelease := false
  , buildID := some 1
  , jsonData :=
      { date := 77
      , zlsVersion := "0.13.0-dev.1+aaaaaaa"
      , zigVersion := "0.13.0-dev.5+bbbbbbb"
      , minimumBuildZigVersion := "0.13.0"
      , minimumRuntimeZigVersion := "0.13.0"
      , testedZigVersions := [("0.13.0-dev.5+bbbbbbb", VersionCompatibility.onlyRuntime)]
      , artifacts :=
          [ ⟨"linux", "x86_64", "0.13.0-dev.1+aaaaaaa", Extension.tarXz, sha64x, 1⟩
          , ⟨"linux", "x86_64", "0.13.0-dev.1+aaaaaaa", Extension.tarGz, sha64x, 1⟩ ] } }

deriving instance DecidableEq for Except

def fullPublishRequest : PublishRequest :=
  { onlyRuntimePublishRequest with compatibility := VersionCompatibility.full }

def fullPublishedRow : ZLSReleaseRow :=
  { onlyRuntimePublishedRow with jsonData :=
      { onlyRuntimePublishedRow.jsonData with testedZigVersions :=
          [("0.13.0-dev.5+bbbbbbb", VersionCompatibility.full)] } }

def selectedDevRecord : D2JsonData :=
  { belowFloorDevRecord with
      minimumBuildZigVersion := "0.11.0", minimumRuntimeZigVersion := "0.11.0" }

def manifestSampleArtifacts : List ReleaseArtifact :=
  [ ⟨"linux", "x86_64", "0.14.0", Extension.tarXz,
      "aaaaaaaaaaaaaaaaaaaaaaaaaaaaaaaaaaaaaaaaaaaaaaaaaaaaaaaaaaaaaaaa", 5⟩
  , ⟨"linux", "x86_64", "0.14.0", Extension.tarGz,
      "aaaaaaaaaaaaaaaaaaaaaaaaaaaaaaaaaaaaaaaaaaaaaaaaaaaaaaaaaaaaaaaa", 5⟩
  , ⟨"windows", "aarch64", "0.15.0", Extension.zip,
      "aaaaaaaaaaaaaaaaaaaaaaaaaaaaaaaaaaaaaaaaaaaaaaaaaaaaaaaaaaaaaaaa", 7⟩ ]

def manifestSampleTargets : List (String × ArtifactEntry) :=
  [ ("x86_64-linux",
      ⟨"https://b/zls-linux-x86_64-0.14.0.tar.xz",
       "aaaaaaaaaaaaaaaaaaaaaaaaaaaaaaaaaaaaaaaaaaaaaaaaaaaaaaaaaaaaaaaa", "5"⟩)
  , ("aarch64-windows",
      ⟨"https://b/zls-aarch64-windows-0.15.0.zip",
       "aaaaaaaaaaaaaaaaaaaaaaaaaaaaaaaaaaaaaaaaaaaaaaaaaaaaaaaaaaaaaaaa", "7"⟩) ]

def enclosedSampleTested : List TestedVersion :=
  [ ⟨⟨0, 12, 0, false, some 2, some "aaaaaaa"⟩, true⟩
  , ⟨⟨0, 12, 0, false, some 7, some "aaaaaaa"⟩, false⟩
  , ⟨⟨0, 12, 0, false, some 9, some "aaaaaaa"⟩, false⟩ ]

theorem order_lt_char (a b : SemanticVersion) : SemanticVersion.order a b = .lt ↔ ltKey a b := by
  rcases a with ⟨a1,a2,a3,a4,a5,a6⟩
  rcases b with ⟨b1,b2,b3,b4,b5,b6⟩
  simp only [SemanticVersion.order, ltKey]
  rcases a5 with _ | x1 <;> rcases b5 with _ | x2 <;>
    simp only [hLt] <;> split_ifs <;> simp <;> omega

theorem order_gt_char (a b : SemanticVersion) : SemanticVersion.order a b = .gt ↔ ltKey b a := by
  rcases a with ⟨a1,a2,a3,a4,a5,a6⟩
  rcases b with ⟨b1,b2,b3,b4,b5,b6⟩
  simp only [SemanticVersion.order, ltKey]
  rcases a5 with _ | x1 <;> rcases b5 with _ | x2 <;>
    simp only [hLt] <;> split_ifs <;> simp <;> omega

theorem order_eq_char (a b : SemanticVersion) : SemanticVersion.order a b = .eq ↔ eqKey a b := by
  rcases a with ⟨a1,a2,a3,a4,a5,a6⟩
  rcases b with ⟨b1,b2,b3,b4,b5,b6⟩
  simp only [SemanticVersion.order, eqKey]
  rcases a5 with _ | x1 <;> rcases b5 with _ | x2 <;>
    simp only [hEq] <;> split_ifs <;> simp <;> omega

theorem order_lt_iff_gt (a b : SemanticVersion) : SemanticVersion.order a b = .lt ↔ SemanticVersion.order b a = .gt := by
  rw [order_lt_char, order_gt_char]

theorem order_eq_comm (a b : SemanticVersion) : SemanticVersion.order a b = .eq ↔ SemanticVersion.order b a = .eq := by
  rw [order_eq_char, order_eq_char]
  rcases a with ⟨a1,a2,a3,a4,a5,a6⟩
  rcases b with ⟨b1,b2,b3,b4,b5,b6⟩
  simp only [eqKey]
  rcases a5 with _ | x1 <;> rcases b5 with _ | x2 <;>
    simp only [hEq, and_true, and_false] <;> first | trivial | omega

theorem order_eq_of_ne_lt_gt {a b : SemanticVersion} (h1 : SemanticVersion.order a b ≠ .lt) (h2 : SemanticVersion.order a b ≠ .gt) : SemanticVersion.order a b = .eq := by
  cases h : SemanticVersion.order a b <;> simp_all

theorem order_trans_lt {a b c : SemanticVersion} (h1 : SemanticVersion.order a b = .lt) (h2 : SemanticVersion.order b c = .lt) : SemanticVersion.order a c = .lt := by
  rw [order_lt_char] at h1 h2 ⊢
  rcases a with ⟨a1,a2,a3,a4,a5,a6⟩
  rcases b with ⟨b1,b2,b3,b4,b5,b6⟩
  rcases c with ⟨c1,c2,c3,c4,c5,c6⟩
  simp only [ltKey] at h1 h2 ⊢
  rcases a5 with _ | x1 <;> rcases b5 with _ | x2 <;> rcases c5 with _ | x3 <;>
    simp only [hLt] at h1 h2 ⊢ <;>
    rcases h1 with h1 | ⟨e1, h1 | ⟨e2, h1 | ⟨e3, h1⟩⟩⟩ <;>
    rcases h2 with h2 | ⟨f1, h2 | ⟨f2, h2 | ⟨f3, h2⟩⟩⟩ <;>
    first
      | exact h1.elim
      | exact h2.elim
      | (try simp only [and_true, true_and, or_true, true_or, and_false, false_and, or_false, false_or]
         first | trivial | omega)

theorem order_lt_of_lt_of_eq {a b c : SemanticVersion} (h1 : SemanticVersion.order a b = .lt) (h2 : SemanticVersion.order b c = .eq) : SemanticVersion.order a c = .lt := by
  rw [order_lt_char] at h1 ⊢
  rw [order_eq_char] at h2
  rcases a with ⟨a1,a2,a3,a4,a5,a6⟩
  rcases b with ⟨b1,b2,b3,b4,b5,b6⟩
  rcases c with ⟨c1,c2,c3,c4,c5,c6⟩
  simp only [ltKey, eqKey] at h1 h2 ⊢
  obtain ⟨f1, f2, f3, f4⟩ := h2
  rcases a5 with _ | x1 <;> rcases b5 with _ | x2 <;> rcases c5 with _ | x3 <;>
    simp only [hLt, hEq] at h1 f4 ⊢ <;>
    rcases h1 with h1 | ⟨e1, h1 | ⟨e2, h1 | ⟨e3, h1⟩⟩⟩ <;>
    first
      | exact h1.elim
      | exact f4.elim
      | (try simp only [and_true, true_and, or_true, true_or, and_false, false_and, or_false, false_or]
         first | trivial | omega)

theorem order_lt_of_eq_of_lt {a b c : SemanticVersion} (h1 : SemanticVersion.order a b = .eq) (h2 : SemanticVersion.order b c = .lt) : SemanticVersion.order a c = .lt := by
  rw [order_eq_char] at h1
  rw [order_lt_char] at h2 ⊢
  rcases a with ⟨a1,a2,a3,a4,a5,a6⟩
  rcases b with ⟨b1,b2,b3,b4,b5,b6⟩
  rcases c with ⟨c1,c2,c3,c4,c5,c6⟩
  simp only [ltKey, eqKey] at h1 h2 ⊢
  obtain ⟨f1, f2, f3, f4⟩ := h1
  rcases a5 with _ | x1 <;> rcases b5 with _ | x2 <;> rcases c5 with _ | x3 <;>
    simp only [hLt, hEq] at h2 f4 ⊢ <;>
    rcases h2 with h2 | ⟨e1, h2 | ⟨e2, h2 | ⟨e3, h2⟩⟩⟩ <;>
    first
      | exact h2.elim
      | exact f4.elim
      | (try simp only [and_true, true_and, or_true, true_or, and_false, false_and, or_false, false_or]
         first | trivial | omega)


/-- C4: `SemanticVersion.order` is the lexicographic comparison on
`(major, minor, patch)`, with a tagged version above any development
version at an equal triple, development versions at an equal triple
compared by commit height, and `commitID` never influencing the result. -/
theorem order_matches_orderSpec (lhs rhs : SemanticVersion) :
    SemanticVersion.order lhs rhs = orderSpec lhs rhs ∧
    (∀ x y : Option String,
      SemanticVersion.order { lhs with commitID := x } { rhs with commitID := y } =
        SemanticVersion.order lhs rhs) := by
  constructor
  · rcases lhs with ⟨a1,a2,a3,a4,a5,a6⟩
    rcases rhs with ⟨b1,b2,b3,b4,b5,b6⟩
    simp only [SemanticVersion.order, orderSpec]
    rcases a5 with _ | x1 <;> rcases b5 with _ | x2 <;>
      simp only [heightCompare, Nat.compare_def_lt] <;>
      split_ifs <;>
      simp_all [ofOrdering, Ordering.then]
  · intro x y
    rcases lhs with ⟨a1,a2,a3,a4,a5,a6⟩
    rcases rhs with ⟨b1,b2,b3,b4,b5,b6⟩
    rfl

/-- C5: on a tagged Zig version, the selector returns the first row of the
patch-descending minor query when one exists; with no row for the minor it
returns `Unsupported` (code 0) when the oldest tagged release has a minimum
runtime Zig version above the request, and `TaggedReleaseIncompatible`
(code 3) otherwise. -/
theorem selectOnTaggedRelease_characterization
    (taggedByMinor : List D2JsonData) (oldestTaggedRelease : Option D2JsonData)
    (zigVersion : SemanticVersion) (hrel : zigVersion.isRelease = true) :
    (∀ r rest, taggedByMinor = r :: rest →
      selectOnTaggedRelease taggedByMinor oldestTaggedRelease zigVersion = some (.inl r)) ∧
    (∀ oldest m, taggedByMinor = [] → oldestTaggedRelease = some oldest →
      SemanticVersion.parse oldest.minimumRuntimeZigVersion = some m →
      selectOnTaggedRelease taggedByMinor oldestTaggedRelease zigVersion =
        some (.inr
          (if SemanticVersion.order zigVersion m = .lt then .Unsupported
           else .TaggedReleaseIncompatible))) ∧
    (taggedByMinor = [] → oldestTaggedRelease = none →
      selectOnTaggedRelease taggedByMinor oldestTaggedRelease zigVersion =
        some (.inr .TaggedReleaseIncompatible)) := by
  refine ⟨?_, ?_, ?_⟩
  · intro r rest hq
    subst hq
    simp [selectOnTaggedRelease, hrel]
  · intro oldest m hq ho hm
    subst hq
    subst ho
    simp only [selectOnTaggedRelease, hrel, Bool.not_true, Bool.false_eq_true, if_false, hm]
    split_ifs <;> rfl
  · intro hq ho
    subst hq
    subst ho
    simp [selectOnTaggedRelease, hrel]

theorem selectOnTaggedRelease_characterization_witness :
    (⟨0, 11, 0, true, none, none⟩ : SemanticVersion).isRelease = true ∧
    selectOnTaggedRelease [] (some belowFloorDevRecord) ⟨0, 11, 0, true, none, none⟩ =
      some (.inr .Unsupported) := by
  refine ⟨by decide, ?_⟩
  have h := (selectOnTaggedRelease_characterization [] (some belowFloorDevRecord)
    ⟨0, 11, 0, true, none, none⟩ (by decide)).2.1 belowFloorDevRecord
    ⟨0, 12, 0, true, none, none⟩ rfl rfl (by decide)
  simpa using h

/-- C1 counterexample: with a non-empty `devByMinor` result and a request
below the support floor the code returns `Unsupported` (code 0), not
`DevelopmentBuildUnsupported`; in the tagged-handoff case (empty
`devByMinor`) it returns `DevelopmentBuildUnsupported` (code 1), not
`Unsupported`. The claim states the two outcomes the other way around. -/
theorem selectOnDevelopmentBuild_below_floor_counterexample :
    selectOnDevelopmentBuild [belowFloorDevRecord] none zigBelowFloor .full =
        some (.inr .Unsupported) ∧
      selectOnDevelopmentBuild [] (some belowFloorDevRecord) zigBelowFloor .full =
        some (.inr .DevelopmentBuildUnsupported) ∧
      SelectVersionFailureCode.Unsupported ≠ SelectVersionFailureCode.DevelopmentBuildUnsupported ∧
      SelectVersionFailureCode.Unsupported.code = 0 ∧
      SelectVersionFailureCode.DevelopmentBuildUnsupported.code = 1 := by
  refine ⟨by decide, by decide, by decide, rfl, rfl⟩

/-- C1 amended: when the requested development Zig version is below the
support floor of the first candidate, `selectOnDevelopmentBuild` returns
`Unsupported` (code 0) if the `devByMinor` query was non-empty and
`DevelopmentBuildUnsupported` (code 1) in the tagged-handoff case. -/
theorem selectOnDevelopmentBuild_below_floor
    (developmentReleases : List D2JsonData) (latestTaggedRelease : Option D2JsonData)
    (zigVersion : SemanticVersion) (compatibility : ReqCompatibility)
    (oldestRelease : D2JsonData) (rest : List D2JsonData) (floor : SemanticVersion)
    (hdev : zigVersion.isRelease = false)
    (hcands : releasesOf developmentReleases latestTaggedRelease = oldestRelease :: rest)
    (hmin : selectMinimumZigVersion oldestRelease compatibility = some floor)
    (hlt : SemanticVersion.order zigVersion floor = .lt) :
    selectOnDevelopmentBuild developmentReleases latestTaggedRelease zigVersion compatibility =
      some (.inr
        (if developmentReleases.isEmpty then .DevelopmentBuildUnsupported else .Unsupported)) := by
  simp only [selectOnDevelopmentBuild, hdev, hcands, hmin, hlt, Bool.false_eq_true, if_false]
  split_ifs <;> simp_all [releasesOf]

theorem selectOnDevelopmentBuild_below_floor_witness :
    (zigBelowFloor.isRelease = false ∧
      releasesOf [belowFloorDevRecord] none = [belowFloorDevRecord] ∧
      selectMinimumZigVersion belowFloorDevRecord .full = some ⟨0, 12, 0, true, none, none⟩ ∧
      SemanticVersion.order zigBelowFloor ⟨0, 12, 0, true, none, none⟩ = .lt) ∧
    selectOnDevelopmentBuild [belowFloorDevRecord] none zigBelowFloor .full =
      some (.inr .Unsupported) := by
  refine ⟨⟨by decide, by decide, by decide, by decide⟩, ?_⟩
  have h := selectOnDevelopmentBuild_below_floor [belowFloorDevRecord] none zigBelowFloor .full
    belowFloorDevRecord [] ⟨0, 12, 0, true, none, none⟩ (by decide) (by decide) (by decide) (by decide)
  simpa using h

/-- C8: the publish validator accepts a first publish of a development ZLS
build that carries artifacts together with `only-runtime` compatibility,
and the stored record then maps its own `zigVersion` to `only-runtime`
rather than `full`, violating invariant I5 on a record that has artifacts
for that Zig version. -/
theorem handlePublish_onlyRuntime_breaks_full_invariant :
    handlePublish [] 77 onlyRuntimePublishRequest =
        some (.ok [onlyRuntimePublishedRow]) ∧
      onlyRuntimePublishedRow.jsonData.artifacts ≠ [] ∧
      onlyRuntimePublishedRow.jsonData.testedZigVersions.lookup
          onlyRuntimePublishedRow.jsonData.zigVersion =
        some VersionCompatibility.onlyRuntime ∧
      VersionCompatibility.onlyRuntime ≠ VersionCompatibility.full :=
  ⟨by decide, by decide, by decide, by decide⟩

theorem patchTestedRow_artifacts (req : PublishRequest) (row : ZLSReleaseRow) :
    (patchTestedRow req row).jsonData.artifacts = row.jsonData.artifacts := by
  unfold patchTestedRow
  split <;> rfl

theorem applyBatch_preserves_nonempty_artifacts
    (db : List ZLSReleaseRow) (zlsVersion : SemanticVersion)
    (req : PublishRequest) (newEntryValue : D2JsonData)
    (hinv : ∀ row ∈ db, row.jsonData.artifacts ≠ [])
    (hnew : newEntryValue.artifacts = [] →
      db.any (fun row => row.zlsVersion == req.zlsVersion) = true) :
    ∀ row ∈ applyBatch db zlsVersion req newEntryValue, row.jsonData.artifacts ≠ [] := by
  intro row hrow
  rcases List.mem_map.mp hrow with ⟨orig, horig, heq⟩
  rw [← heq, patchTestedRow_artifacts]
  unfold insertOrIgnore at horig
  split at horig
  · exact hinv orig horig
  · rcases List.mem_append.mp horig with h | h
    · exact hinv orig h
    · next hnotfound =>
      simp only [List.mem_singleton] at h
      subst h
      intro hempty
      exact hnotfound (hnew hempty)

theorem postArtifactChecks_pass_any
    (db : List ZLSReleaseRow) (req : PublishRequest) (zlsVersion : SemanticVersion)
    (releaseArtifacts : List ReleaseArtifact)
    (h : postArtifactChecks db req zlsVersion releaseArtifacts = none)
    (hempty : releaseArtifacts = []) :
    db.any (fun row => row.zlsVersion == req.zlsVersion) = true := by
  unfold postArtifactChecks at h
  split_ifs at h
  all_goals simp_all

theorem publishWrites_ok_inversion
    (db : List ZLSReleaseRow) (now : Nat) (req : PublishRequest)
    (zlsVersion : SemanticVersion) (releaseArtifacts : List ReleaseArtifact)
    (db2 : List ZLSReleaseRow)
    (h : publishWrites db now req zlsVersion releaseArtifacts = some (.ok db2)) :
    db2 = applyBatch db zlsVersion req (newEntryOf now req releaseArtifacts) := by
  unfold publishWrites at h
  repeat' split at h
  any_goals exact Option.noConfusion h
  any_goals exact Except.noConfusion (Option.some.inj h)
  all_goals exact (Except.ok.inj (Option.some.inj h)).symm

set_option maxHeartbeats 1000000 in
/-- C10: if every stored record has a non-empty artifact list, any accepted
publish keeps it so: a first publish without artifacts is rejected before
the batch, a re-publish without artifacts only merges into
`testedZigVersions` of the existing row, and a fresh insert carries the
non-empty artifact list of its own request. The development selector
asserts `artifacts.length !== 0` on every scanned record, so states
produced by this publish path never fire it. -/
theorem handlePublish_preserves_nonempty_artifacts
    (db : List ZLSReleaseRow) (now : Nat) (req : PublishRequest)
    (db2 : List ZLSReleaseRow)
    (hinv : ∀ row ∈ db, row.jsonData.artifacts ≠ [])
    (hok : handlePublish db now req = some (.ok db2)) :
    ∀ row ∈ db2, row.jsonData.artifacts ≠ [] := by
  unfold handlePublish at hok
  repeat' split at hok
  any_goals exact Except.noConfusion (Option.some.inj hok)
  next _ zlsVersion _ _ _ _ _ _ _ _ _ _ _ _ _ arts _ _ hpost =>
    rw [publishWrites_ok_inversion db now req zlsVersion arts db2 hok]
    apply applyBatch_preserves_nonempty_artifacts db zlsVersion req _ hinv
    intro hempty
    exact postArtifactChecks_pass_any db req zlsVersion arts hpost
      (by simpa [newEntryOf] using hempty)

theorem handlePublish_preserves_nonempty_artifacts_witness :
    ((∀ row ∈ ([] : List ZLSReleaseRow), row.jsonData.artifacts ≠ []) ∧
      handlePublish [] 77 fullPublishRequest = some (.ok [fullPublishedRow])) ∧
    ∀ row ∈ [fullPublishedRow], row.jsonData.artifacts ≠ [] := by
  refine ⟨⟨by simp, by decide⟩, ?_⟩
  exact handlePublish_preserves_nonempty_artifacts [] 77 fullPublishRequest
    [fullPublishedRow] (by simp) (by decide)

theorem selectEntryLoop_effective_minimum
    (zigVersion : SemanticVersion) (compatibility : ReqCompatibility) :
    ∀ (l : List D2JsonData) (sel r : D2JsonData),
      (∃ m, selectMinimumZigVersion sel compatibility = some m ∧
        SemanticVersion.order zigVersion m ≠ .lt) →
      selectEntryLoop zigVersion compatibility l sel = some r →
      ∃ m, selectMinimumZigVersion r compatibility = some m ∧
        SemanticVersion.order zigVersion m ≠ .lt := by
  intro l
  induction l with
  | nil =>
    intro sel r hsel h
    simp only [selectEntryLoop, Option.some_inj] at h
    exact h ▸ hsel
  | cons entry rest ih =>
    intro sel r hsel h
    unfold selectEntryLoop at h
    split at h
    · exact Option.noConfusion h
    · split at h
      · exact Option.noConfusion h
      · next m hm =>
        split at h
        · exact ih sel r hsel h
        · next horder => exact ih entry r ⟨m, hm, horder⟩ h

/-- C3: whenever the development-build selector returns a record, the
effective minimum Zig version of that record (under the requested
compatibility) is at most the requested Zig version, and the sorted
tested-version list of the record does not enclose the request in
failure. -/
theorem selectOnDevelopmentBuild_selected_sound
    (developmentReleases : List D2JsonData) (latestTaggedRelease : Option D2JsonData)
    (zigVersion : SemanticVersion) (compatibility : ReqCompatibility) (r : D2JsonData)
    (h : selectOnDevelopmentBuild developmentReleases latestTaggedRelease zigVersion compatibility
      = some (.inl r)) :
    (∃ m, selectMinimumZigVersion r compatibility = some m ∧
      SemanticVersion.order zigVersion m ≠ .lt) ∧
    (∃ tested, toTestedVersions r compatibility = some tested ∧ tested ≠ [] ∧
      isVersionEnclosedInFailure tested zigVersion = false) := by
  unfold selectOnDevelopmentBuild at h
  repeat' split at h
  any_goals exact Option.noConfusion h
  any_goals exact Sum.noConfusion (Option.some.inj h)
  next _ _ oldestRelease rest _ _ m hm hnotlt _ selectedEntry hloop hfull _ tested htested hne henc =>
    have hr : selectedEntry = r := Sum.inl.inj (Option.some.inj h)
    subst hr
    constructor
    · exact selectEntryLoop_effective_minimum zigVersion compatibility
        (oldestRelease :: rest) oldestRelease selectedEntry ⟨m, hm, hnotlt⟩ hloop
    · exact ⟨tested, htested, by simpa using hne, by simpa using henc⟩

theorem selectOnDevelopmentBuild_selected_sound_witness :
    selectOnDevelopmentBuild [selectedDevRecord] none ⟨0, 12, 0, false, some 6, some "ccccccc"⟩
        ReqCompatibility.full = some (.inl selectedDevRecord) ∧
      ((∃ m, selectMinimumZigVersion selectedDevRecord ReqCompatibility.full = some m ∧
        SemanticVersion.order ⟨0, 12, 0, false, some 6, some "ccccccc"⟩ m ≠ .lt) ∧
      (∃ tested, toTestedVersions selectedDevRecord ReqCompatibility.full = some tested ∧
        tested ≠ [] ∧
        isVersionEnclosedInFailure tested ⟨0, 12, 0, false, some 6, some "ccccccc"⟩ = false)) :=
  ⟨by decide,
   selectOnDevelopmentBuild_selected_sound [selectedDevRecord] none
     ⟨0, 12, 0, false, some 6, some "ccccccc"⟩ ReqCompatibility.full selectedDevRecord
     (by decide)⟩

theorem targetFormat_resolved (version : SemanticVersion) :
    targetFormat version =
      some
        (match SemanticVersion.order version ⟨0, 15, 0, true, none, none⟩ with
         | .lt => TargetFormat.osArch
         | _ => TargetFormat.archOs) := by
  show (match SemanticVersion.order version ⟨0, 15, 0, true, none, none⟩ with
        | Order.lt => some TargetFormat.osArch
        | _ => some TargetFormat.archOs) = _
  cases SemanticVersion.order version ⟨0, 15, 0, true, none, none⟩ <;> rfl

theorem artifactsLoop_characterization (R2_PUBLIC_URL : String) :
    ∀ (l : List ReleaseArtifact) (acc targets : List (String × ArtifactEntry)),
      artifactsLoop R2_PUBLIC_URL l acc = some targets →
      targets = acc ++ (l.filter (fun a => a.extension ≠ Extension.tarGz)).filterMap
        (fun a => (SemanticVersion.parse a.version).map (manifestEntry R2_PUBLIC_URL a)) := by
  intro l
  induction l with
  | nil =>
    intro acc targets h
    simp only [artifactsLoop, Option.some_inj] at h
    simp [← h]
  | cons a rest ih =>
    intro acc targets h
    unfold artifactsLoop at h
    split at h
    · next hext =>
      have := ih acc targets h
      simp [this, List.filter_cons, hext]
    · next hext =>
      have hfilter : (a :: rest).filter (fun x => x.extension ≠ Extension.tarGz)
          = a :: rest.filter (fun x => x.extension ≠ Extension.tarGz) := by
        cases haext : a.extension <;> simp_all [List.filter_cons]
      split at h
      · exact Option.noConfusion h
      · next version hparse =>
        rw [targetFormat_resolved version] at h
        rw [hfilter]
        simp only [List.filterMap_cons, hparse, Option.map_some]
        cases horder : SemanticVersion.order version ⟨0, 15, 0, true, none, none⟩ <;>
          (rw [horder] at h
           simp only [] at h
           split at h
           · exact Option.noConfusion h
           · split at h
             · exact Option.noConfusion h
             · rw [ih _ targets h]
               simp [manifestEntry, horder, Extension.text])

/-- C9: a successful `artifactsToRecord` emits exactly one manifest entry
per artifact whose extension is not `tar.gz`, keyed `arch-os`, carrying the
shasum and the decimal file size, with the tarball file name in `os-arch`
order for artifact versions below `0.15.0` and in `arch-os` order from
`0.15.0` on, the key staying `arch-os` in both cases. -/
theorem artifactsToRecord_manifest
    (R2_PUBLIC_URL : String) (artifacts : List ReleaseArtifact)
    (targets : List (String × ArtifactEntry))
    (h : artifactsToRecord R2_PUBLIC_URL artifacts = some targets) :
    targets = (artifacts.filter (fun a => a.extension ≠ Extension.tarGz)).filterMap
      (fun a => (SemanticVersion.parse a.version).map (manifestEntry R2_PUBLIC_URL a)) := by
  unfold artifactsToRecord at h
  split at h
  · exact Option.noConfusion h
  · simpa using artifactsLoop_characterization R2_PUBLIC_URL artifacts [] targets h

theorem artifactsToRecord_manifest_witness :
    artifactsToRecord "https://b" manifestSampleArtifacts = some manifestSampleTargets ∧
    manifestSampleTargets =
      (manifestSampleArtifacts.filter (fun a => a.extension ≠ Extension.tarGz)).filterMap
        (fun a => (SemanticVersion.parse a.version).map (manifestEntry "https://b" a)) :=
  ⟨by decide,
   artifactsToRecord_manifest "https://b" manifestSampleArtifacts manifestSampleTargets
     (by decide)⟩

theorem filter_eq_take_of_iff {α : Type} (p : α → Bool) :
    ∀ (l : List α) (s : Nat),
      (∀ i (hi : i < l.length), (p (l.get ⟨i, hi⟩) = true ↔ i < s)) →
      l.filter p = l.take s := by
  intro l
  induction l with
  | nil => intro s h; simp
  | cons x xs ih =>
    intro s h
    cases s with
    | zero =>
      have hx : p x = false := by
        have := h 0 (by simp)
        simpa using this
      have hxs : xs.filter p = xs.take 0 := by
        apply ih
        intro i hi
        have := h (i + 1) (by simpa using Nat.succ_lt_succ hi)
        simpa using this
      simp [List.filter_cons, hx, hxs]
    | succ s =>
      have hx : p x = true := by
        have := h 0 (by simp)
        simpa using this
      have hxs : xs.filter p = xs.take s := by
        apply ih
        intro i hi
        have := h (i + 1) (by simpa using Nat.succ_lt_succ hi)
        simpa [Nat.succ_lt_succ_iff] using this
      simp [List.filter_cons, hx, hxs]

theorem filter_eq_drop_of_iff {α : Type} (p : α → Bool) :
    ∀ (l : List α) (s : Nat),
      (∀ i (hi : i < l.length), (p (l.get ⟨i, hi⟩) = true ↔ s ≤ i)) →
      l.filter p = l.drop s := by
  intro l
  induction l with
  | nil => intro s h; simp
  | cons x xs ih =>
    intro s h
    cases s with
    | zero =>
      have hx : p x = true := by
        have := h 0 (by simp)
        simpa using this
      have hxs : xs.filter p = xs.drop 0 := by
        apply ih
        intro i hi
        have := h (i + 1) (by simpa using Nat.succ_lt_succ hi)
        simpa using this
      simp [List.filter_cons, hx, hxs]
    | succ s =>
      have hx : p x = false := by
        have := h 0 (by simp)
        simpa using this
      have hxs : xs.filter p = xs.drop s := by
        apply ih
        intro i hi
        have := h (i + 1) (by simpa using Nat.succ_lt_succ hi)
        simpa [Nat.succ_le_succ_iff] using this
      simp [List.filter_cons, hx, hxs]

theorem take_getLast? {α : Type} (l : List α) (s : Nat) (h1 : 1 ≤ s) (h2 : s ≤ l.length) :
    (l.take s).getLast? = l[s - 1]? := by
  rw [List.getLast?_eq_getElem?, List.getElem?_take, List.length_take]
  have : min s l.length = s := by omega
  rw [this, if_pos (by omega)]

theorem pairwise_get_lt {tested : List TestedVersion}
    (hp : List.Pairwise (fun a b => SemanticVersion.order a.version b.version = .lt) tested)
    {i j : Nat} (hi : i < tested.length) (hj : j < tested.length) (hij : i < j) :
    SemanticVersion.order (tested.get ⟨i, hi⟩).version (tested.get ⟨j, hj⟩).version = .lt :=
  List.pairwise_iff_get.mp hp ⟨i, hi⟩ ⟨j, hj⟩ hij

theorem atMostVersion_eq_true (v : SemanticVersion) (t : TestedVersion)
    (h : SemanticVersion.order t.version v ≠ .gt) : atMostVersion v t = true := by
  cases horder : SemanticVersion.order t.version v <;> simp_all [atMostVersion]

theorem atMostVersion_eq_false (v : SemanticVersion) (t : TestedVersion)
    (h : SemanticVersion.order t.version v = .gt) : atMostVersion v t = false := by
  simp [atMostVersion, h]

theorem atLeastVersion_eq_true (v : SemanticVersion) (t : TestedVersion)
    (h : SemanticVersion.order t.version v ≠ .lt) : atLeastVersion v t = true := by
  cases horder : SemanticVersion.order t.version v <;> simp_all [atLeastVersion]

theorem atLeastVersion_eq_false (v : SemanticVersion) (t : TestedVersion)
    (h : SemanticVersion.order t.version v = .lt) : atLeastVersion v t = false := by
  simp [atLeastVersion, h]

theorem naive_eq_of_gap (tested : List TestedVersion) (v : SemanticVersion) (s : Nat)
    (hs1 : 1 ≤ s) (hsn : s < tested.length)
    (hlow : ∀ i (hi : i < tested.length), i < s →
      SemanticVersion.order (tested.get ⟨i, hi⟩).version v = .lt)
    (hhigh : ∀ i (hi : i < tested.length), s ≤ i →
      SemanticVersion.order (tested.get ⟨i, hi⟩).version v = .gt) :
    naiveEnclosedInFailure tested v =
      (!(tested.get ⟨s - 1, by omega⟩).isSuccess && !(tested.get ⟨s, hsn⟩).isSuccess) := by
  unfold naiveEnclosedInFailure
  have hleft : tested.filter (atMostVersion v) = tested.take s := by
    apply filter_eq_take_of_iff
    intro i hi
    constructor
    · intro hpi
      by_contra hns
      rw [atMostVersion_eq_false v _ (hhigh i hi (by omega))] at hpi
      exact Bool.noConfusion hpi
    · intro his
      exact atMostVersion_eq_true v _ (by rw [hlow i hi his]; intro hc; exact Order.noConfusion hc)
  have hright : tested.filter (atLeastVersion v) = tested.drop s := by
    apply filter_eq_drop_of_iff
    intro i hi
    constructor
    · intro hpi
      by_contra hns
      rw [atLeastVersion_eq_false v _ (hlow i hi (by omega))] at hpi
      exact Bool.noConfusion hpi
    · intro his
      exact atLeastVersion_eq_true v _ (by rw [hhigh i hi his]; intro hc; exact Order.noConfusion hc)
  rw [hleft, hright, take_getLast? tested s hs1 (by omega), List.head?_drop]
  rw [List.getElem?_eq_getElem (by omega : s - 1 < tested.length),
    List.getElem?_eq_getElem hsn]
  simp [List.get_eq_getElem]

theorem naive_eq_of_all_gt (tested : List TestedVersion) (v : SemanticVersion)
    (hn : 0 < tested.length)
    (hall : ∀ i (hi : i < tested.length),
      SemanticVersion.order (tested.get ⟨i, hi⟩).version v = .gt) :
    naiveEnclosedInFailure tested v = !(tested.get ⟨0, hn⟩).isSuccess := by
  unfold naiveEnclosedInFailure
  have hleft : tested.filter (atMostVersion v) = tested.take 0 := by
    apply filter_eq_take_of_iff
    intro i hi
    simp only [Nat.not_lt_zero, iff_false]
    rw [atMostVersion_eq_false v _ (hall i hi)]
    exact Bool.false_ne_true
  have hright : tested.filter (atLeastVersion v) = tested.drop 0 := by
    apply filter_eq_drop_of_iff
    intro i hi
    simp only [Nat.zero_le, iff_true]
    exact atLeastVersion_eq_true v _ (by rw [hall i hi]; intro hc; exact Order.noConfusion hc)
  rw [hleft, hright, List.head?_drop, List.getElem?_eq_getElem hn]
  simp [List.get_eq_getElem]

theorem naive_eq_of_all_lt (tested : List TestedVersion) (v : SemanticVersion)
    (hn : 0 < tested.length)
    (hall : ∀ i (hi : i < tested.length),
      SemanticVersion.order (tested.get ⟨i, hi⟩).version v = .lt) :
    naiveEnclosedInFailure tested v =
      !(tested.get ⟨tested.length - 1, by omega⟩).isSuccess := by
  unfold naiveEnclosedInFailure
  have hleft : tested.filter (atMostVersion v) = tested.take tested.length := by
    apply filter_eq_take_of_iff
    intro i hi
    simp only [hi, iff_true]
    exact atMostVersion_eq_true v _ (by rw [hall i hi]; intro hc; exact Order.noConfusion hc)
  have hright : tested.filter (atLeastVersion v) = tested.drop tested.length := by
    apply filter_eq_drop_of_iff
    intro i hi
    simp only [Nat.not_le_of_lt hi, iff_false]
    rw [atLeastVersion_eq_false v _ (hall i hi)]
    exact Bool.false_ne_true
  rw [hleft, hright, take_getLast? tested tested.length hn (le_refl _), List.drop_length]
  rw [List.getElem?_eq_getElem (by omega : tested.length - 1 < tested.length)]
  simp [List.get_eq_getElem]

theorem naive_eq_of_exact (tested : List TestedVersion) (v : SemanticVersion) (m : Nat)
    (hm : m < tested.length)
    (hp : List.Pairwise (fun a b => SemanticVersion.order a.version b.version = .lt) tested)
    (heq : SemanticVersion.order (tested.get ⟨m, hm⟩).version v = .eq) :
    naiveEnclosedInFailure tested v = !(tested.get ⟨m, hm⟩).isSuccess := by
  unfold naiveEnclosedInFailure
  have hleft : tested.filter (atMostVersion v) = tested.take (m + 1) := by
    apply filter_eq_take_of_iff
    intro i hi
    constructor
    · intro hpi
      by_contra hns
      have hgt : SemanticVersion.order (tested.get ⟨i, hi⟩).version v = .gt := by
        have h1 := pairwise_get_lt hp hm hi (by omega)
        have h2 : SemanticVersion.order v (tested.get ⟨m, hm⟩).version = .eq :=
          (order_eq_comm _ _).mp heq
        have h3 := order_lt_of_eq_of_lt h2 h1
        exact (order_lt_iff_gt _ _).mp h3
      rw [atMostVersion_eq_false v _ hgt] at hpi
      exact Bool.noConfusion hpi
    · intro his
      apply atMostVersion_eq_true
      rcases Nat.lt_or_ge i m with hlt | hge
      · have h1 := pairwise_get_lt hp hi hm hlt
        rw [order_lt_of_lt_of_eq h1 heq]
        intro hc; exact Order.noConfusion hc
      · have him : i = m := by omega
        subst him
        rw [heq]
        intro hc; exact Order.noConfusion hc
  have hright : tested.filter (atLeastVersion v) = tested.drop m := by
    apply filter_eq_drop_of_iff
    intro i hi
    constructor
    · intro hpi
      by_contra hns
      have hlt : SemanticVersion.order (tested.get ⟨i, hi⟩).version v = .lt :=
        order_lt_of_lt_of_eq (pairwise_get_lt hp hi hm (by omega)) heq
      rw [atLeastVersion_eq_false v _ hlt] at hpi
      exact Bool.noConfusion hpi
    · intro his
      apply atLeastVersion_eq_true
      rcases Nat.lt_or_ge m i with hlt | hge
      · have h1 := pairwise_get_lt hp hm hi hlt
        have h2 : SemanticVersion.order v (tested.get ⟨m, hm⟩).version = .eq :=
          (order_eq_comm _ _).mp heq
        have h3 := order_lt_of_eq_of_lt h2 h1
        rw [(order_lt_iff_gt _ _).mp h3]
        intro hc; exact Order.noConfusion hc
      · have him : i = m := by omega
        subst him
        rw [heq]
        intro hc; exact Order.noConfusion hc
  rw [hleft, hright, take_getLast? tested (m + 1) (by omega) (by omega), List.head?_drop]
  rw [List.getElem?_eq_getElem (by omega : m + 1 - 1 < tested.length),
    List.getElem?_eq_getElem hm]
  simp [List.get_eq_getElem]

theorem nthTested_eq_get (tested : List TestedVersion) (i : Int)
    (h : i.toNat < tested.length) :
    nthTested tested i = tested.get ⟨i.toNat, h⟩ := by
  unfold nthTested
  rw [List.getD_eq_getElem?_getD, List.getElem?_eq_getElem h]
  rfl

theorem bracket_eq_naive (tested : List TestedVersion) (v : SemanticVersion)
    (hn : 0 < tested.length)
    (hex0 : SemanticVersion.order (tested.get ⟨0, hn⟩).version v = .lt)
    (hexl : SemanticVersion.order (tested.get ⟨tested.length - 1, by omega⟩).version v = .gt)
    (s e : Int) (h0 : 0 ≤ s) (hse : s = e + 1) (he : e ≤ (tested.length : Int) - 1)
    (hlow : ∀ i (hi : i < tested.length), (i : Int) < s →
      SemanticVersion.order (tested.get ⟨i, hi⟩).version v = .lt)
    (hhigh : ∀ i (hi : i < tested.length), e < (i : Int) →
      SemanticVersion.order (tested.get ⟨i, hi⟩).version v = .gt) :
    bracketResult tested s e = naiveEnclosedInFailure tested v := by
  have hs1 : 1 ≤ s := by
    by_contra hc
    push_neg at hc
    have hs0 : s = 0 := by omega
    have := hhigh 0 hn (by omega)
    rw [this] at hex0
    exact Order.noConfusion hex0
  have hsn : s < (tested.length : Int) := by
    by_contra hc
    push_neg at hc
    have := hlow (tested.length - 1) (by omega) (by omega)
    rw [this] at hexl
    exact Order.noConfusion hexl
  have hsnat : s.toNat < tested.length := by omega
  have hs1nat : 1 ≤ s.toNat := by omega
  have henat : e.toNat = s.toNat - 1 ∨ (e = -1 ∧ False) := by
    left; omega
  unfold bracketResult
  rw [nthTested_eq_get tested s hsnat,
    nthTested_eq_get tested e (by omega : e.toNat < tested.length)]
  rw [naive_eq_of_gap tested v s.toNat hs1nat hsnat
    (fun i hi hilt => hlow i hi (by omega))
    (fun i hi hige => hhigh i hi (by omega))]
  have hget : tested.get ⟨e.toNat, (by omega : e.toNat < tested.length)⟩
      = tested.get ⟨s.toNat - 1, (by omega : s.toNat - 1 < tested.length)⟩ := by
    congr 1
    exact Fin.mk_eq_mk.mpr (by omega)
  rw [hget]

theorem searchLoop_eq_naive (tested : List TestedVersion) (v : SemanticVersion)
    (hp : List.Pairwise (fun a b => SemanticVersion.order a.version b.version = .lt) tested)
    (hn : 0 < tested.length)
    (hex0 : SemanticVersion.order (tested.get ⟨0, hn⟩).version v = .lt)
    (hexl : SemanticVersion.order (tested.get ⟨tested.length - 1, by omega⟩).version v = .gt) :
    ∀ (fuel : Nat) (s e : Int),
      (e - s + 1).toNat ≤ fuel →
      0 ≤ s → e ≤ (tested.length : Int) - 1 → s ≤ e + 1 →
      (∀ i (hi : i < tested.length), (i : Int) < s →
        SemanticVersion.order (tested.get ⟨i, hi⟩).version v = .lt) →
      (∀ i (hi : i < tested.length), e < (i : Int) →
        SemanticVersion.order (tested.get ⟨i, hi⟩).version v = .gt) →
      searchLoop tested v fuel s e = naiveEnclosedInFailure tested v := by
  intro fuel
  induction fuel with
  | zero =>
    intro s e hf h0 he hse hlow hhigh
    have hexit : s = e + 1 := by omega
    exact bracket_eq_naive tested v hn hex0 hexl s e h0 hexit he hlow hhigh
  | succ fuel ih =>
    intro s e hf h0 he hse hlow hhigh
    rw [searchLoop]
    by_cases hcond : s ≤ e
    · rw [if_pos hcond]
      simp only []
      have hmid1 : s ≤ (s + e) / 2 := by omega
      have hmid2 : (s + e) / 2 ≤ e := by omega
      have hmidnat : ((s + e) / 2).toNat < tested.length := by omega
      rw [nthTested_eq_get tested ((s + e) / 2) hmidnat]
      cases horder : SemanticVersion.order
          (tested.get ⟨((s + e) / 2).toNat, hmidnat⟩).version v with
      | lt =>
        simp only []
        apply ih ((s + e) / 2 + 1) e (by omega) (by omega) he (by omega)
        · intro i hi hilt
          rcases Nat.lt_or_ge i ((s + e) / 2).toNat with hlt | hge
          · exact order_trans_lt (pairwise_get_lt hp hi hmidnat hlt) horder
          · have : i = ((s + e) / 2).toNat := by omega
            subst this
            exact horder
        · exact hhigh
      | eq =>
        simp only []
        rw [naive_eq_of_exact tested v ((s + e) / 2).toNat hmidnat hp horder]
      | gt =>
        simp only []
        apply ih s ((s + e) / 2 - 1) (by omega) h0 (by omega) (by omega) hlow
        intro i hi hgt
        rcases Nat.lt_or_ge ((s + e) / 2).toNat i with hlt | hge
        · have h1 := pairwise_get_lt hp hmidnat hi hlt
          have h2 : SemanticVersion.order v
              (tested.get ⟨((s + e) / 2).toNat, hmidnat⟩).version = .lt :=
            (order_lt_iff_gt _ _).mpr horder
          exact (order_lt_iff_gt _ _).mp (order_trans_lt h2 h1)
        · have : i = ((s + e) / 2).toNat := by omega
          subst this
          exact horder
    · rw [if_neg hcond]
      have hexit : s = e + 1 := by omega
      exact bracket_eq_naive tested v hn hex0 hexl s e h0 hexit he hlow hhigh

/-- C2: on a non-empty list of tested versions sorted strictly ascending by
`SemanticVersion.order`, the fast-path-plus-binary-search implementation
`isVersionEnclosedInFailure` agrees with the naive reference definition:
enclosed exactly when the nearest tested neighbor at or below the version
and the nearest tested neighbor at or above it are both failures, an
exactly equal entry counting as both neighbors. -/
theorem isVersionEnclosedInFailure_eq_naive
    (tested : List TestedVersion) (v : SemanticVersion)
    (hne : tested ≠ [])
    (hp : List.Pairwise (fun a b => SemanticVersion.order a.version b.version = .lt) tested) :
    isVersionEnclosedInFailure tested v = naiveEnclosedInFailure tested v := by
  have hn : 0 < tested.length := List.length_pos.mpr hne
  have hlast : (tested.length : Int) - 1 = ((tested.length - 1 : Nat) : Int) := by omega
  have hlastnat : ((tested.length : Int) - 1).toNat = tested.length - 1 := by omega
  unfold isVersionEnclosedInFailure
  rw [nthTested_eq_get tested 0 (by simpa using hn)]
  rw [nthTested_eq_get tested ((tested.length : Int) - 1)
    (by omega : ((tested.length : Int) - 1).toNat < tested.length)]
  cases horder1 : SemanticVersion.order v
      (tested.get ⟨(0 : Int).toNat, by simpa using hn⟩).version with
  | lt =>
    simp only []
    rw [naive_eq_of_all_gt tested v hn]
    · rfl
    · intro i hi
      rcases Nat.eq_zero_or_pos i with h0 | hpos
      · subst h0
        exact (order_lt_iff_gt v _).mp horder1
      · have h1 := pairwise_get_lt hp (by simpa using hn) hi hpos
        exact (order_lt_iff_gt v _).mp (order_trans_lt horder1 h1)
  | eq =>
    simp only []
    rw [naive_eq_of_exact tested v 0 hn hp ((order_eq_comm v _).mp horder1)]
    rfl
  | gt =>
    simp only []
    have hcast : (⟨((tested.length : Int) - 1).toNat,
        (by omega : ((tested.length : Int) - 1).toNat < tested.length)⟩ : Fin tested.length)
        = ⟨tested.length - 1, (by omega : tested.length - 1 < tested.length)⟩ :=
      Fin.mk_eq_mk.mpr (by omega)
    have hget0 : (⟨(0 : Int).toNat, (by simpa using hn : (0 : Int).toNat < tested.length)⟩ :
        Fin tested.length) = ⟨0, hn⟩ :=
      Fin.mk_eq_mk.mpr rfl
    rw [hget0] at horder1
    cases horder2 : SemanticVersion.order v
        (tested.get ⟨((tested.length : Int) - 1).toNat, by omega⟩).version with
    | eq =>
      simp only []
      have heq2 := (order_eq_comm v _).mp horder2
      rw [naive_eq_of_exact tested v ((tested.length : Int) - 1).toNat (by omega) hp heq2]
    | gt =>
      simp only []
      rw [hcast] at horder2
      rw [naive_eq_of_all_lt tested v hn]
      · rw [hcast]
      · intro i hi
        have hl : SemanticVersion.order
            (tested.get ⟨tested.length - 1, by omega⟩).version v = .lt :=
          (order_lt_iff_gt _ v).mpr horder2
        rcases Nat.lt_or_ge i (tested.length - 1) with hlt | hge
        · have h1 := pairwise_get_lt hp hi (by omega : tested.length - 1 < tested.length) hlt
          exact order_trans_lt h1 hl
        · have hieq : i = tested.length - 1 := by omega
          subst hieq
          exact hl
    | lt =>
      simp only []
      rw [hcast] at horder2
      have hex0 : SemanticVersion.order (tested.get ⟨0, hn⟩).version v = .lt :=
        (order_lt_iff_gt _ _).mpr horder1
      have hexl : SemanticVersion.order
          (tested.get ⟨tested.length - 1, by omega⟩).version v = .gt :=
        (order_lt_iff_gt v _).mp horder2
      exact searchLoop_eq_naive tested v hp hn hex0 hexl tested.length 0
        ((tested.length : Int) - 1) (by omega) (by omega) (by omega) (by omega)
        (fun i hi hilt => absurd hilt (by omega))
        (fun i hi higt => absurd higt (by omega))

theorem isVersionEnclosedInFailure_eq_naive_witness :
    (enclosedSampleTested ≠ [] ∧
      List.Pairwise (fun a b => SemanticVersion.order a.version b.version = .lt)
        enclosedSampleTested) ∧
    isVersionEnclosedInFailure enclosedSampleTested ⟨0, 12, 0, false, some 8, some "bbbbbbb"⟩
      = naiveEnclosedInFailure enclosedSampleTested ⟨0, 12, 0, false, some 8, some "bbbbbbb"⟩ :=
  ⟨⟨by decide, by decide⟩,
   isVersionEnclosedInFailure_eq_naive enclosedSampleTested
     ⟨0, 12, 0, false, some 8, some "bbbbbbb"⟩ (by decide) (by decide)⟩

theorem natReprAux_fuel : ∀ (n fuel : Nat), n ≤ fuel →
    natReprAux (fuel + 1) n = natReprAux (n + 1) n := by
  intro n
  induction n using Nat.strong_induction_on with
  | _ n ih =>
    intro fuel hf
    by_cases h10 : n < 10
    · simp [natReprAux, h10]
    · push_neg at h10
      have hdiv : n / 10 < n := Nat.div_lt_self (by omega) (by omega)
      have hfuel1 : 1 ≤ fuel := by omega
      have hn1 : 1 ≤ n := by omega
      have e1 : natReprAux (fuel + 1) n = natReprAux fuel (n / 10) ++ [digitChar (n % 10)] := by
        simp [natReprAux, Nat.not_lt_of_ge h10]
      have e2 : natReprAux fuel (n / 10) = natReprAux (n / 10 + 1) (n / 10) := by
        rw [show fuel = (fuel - 1) + 1 by omega]
        exact ih (n / 10) hdiv (fuel - 1) (by omega)
      have e3 : natReprAux (n + 1) n = natReprAux n (n / 10) ++ [digitChar (n % 10)] := by
        simp [natReprAux, Nat.not_lt_of_ge h10]
      have e4 : natReprAux n (n / 10) = natReprAux (n / 10 + 1) (n / 10) := by
        have h5 := ih (n / 10) hdiv (n - 1) (by omega)
        have h6 : n - 1 + 1 = n := by omega
        rw [h6] at h5
        exact h5
      rw [e1, e2, e3, e4]

theorem natReprChars_small {n : Nat} (h : n < 10) : natReprChars n = [digitChar n] := by
  simp [natReprChars, natReprAux, h]

theorem natReprChars_step {n : Nat} (h : 10 ≤ n) :
    natReprChars n = natReprChars (n / 10) ++ [digitChar (n % 10)] := by
  unfold natReprChars
  have h1 : natReprAux (n + 1) n = natReprAux n (n / 10) ++ [digitChar (n % 10)] := by
    simp [natReprAux, Nat.not_lt_of_ge h]
  have h2 : natReprAux n (n / 10) = natReprAux (n / 10 + 1) (n / 10) := by
    have h5 := natReprAux_fuel (n / 10) (n - 1) (by omega)
    have h6 : n - 1 + 1 = n := by omega
    rw [h6] at h5
    exact h5
  rw [h1, h2]

theorem digitChar_isDigit : ∀ d, d < 10 → (digitChar d).isDigit = true := by decide

theorem digitChar_toNat : ∀ d, d < 10 → (digitChar d).toNat = 48 + d := by decide

theorem digitChar_ne_zero_char : ∀ d, d < 10 → 1 ≤ d → digitChar d ≠ '0' := by decide

theorem natReprChars_ne_nil (n : Nat) : natReprChars n ≠ [] := by
  by_cases h10 : n < 10
  · rw [natReprChars_small h10]
    exact List.cons_ne_nil _ _
  · rw [natReprChars_step (by omega)]
    simp

theorem natReprChars_all_digits (n : Nat) : ∀ c ∈ natReprChars n, c.isDigit = true := by
  induction n using Nat.strong_induction_on with
  | _ n ih =>
    by_cases h10 : n < 10
    · rw [natReprChars_small h10]
      intro c hc
      rw [List.mem_singleton] at hc
      subst hc
      exact digitChar_isDigit n h10
    · push_neg at h10
      rw [natReprChars_step h10]
      intro c hc
      rcases List.mem_append.mp hc with h | h
      · exact ih (n / 10) (Nat.div_lt_self (by omega) (by omega)) c h
      · rw [List.mem_singleton] at h
        subst h
        exact digitChar_isDigit (n % 10) (Nat.mod_lt n (by omega))

theorem natReprChars_head_ne_zero (n : Nat) (hn : 1 ≤ n) :
    ∀ c cs, natReprChars n = c :: cs → c ≠ '0' := by
  induction n using Nat.strong_induction_on with
  | _ n ih =>
    intro c cs hrepr
    by_cases h10 : n < 10
    · rw [natReprChars_small h10] at hrepr
      injection hrepr with h1 _
      subst h1
      exact digitChar_ne_zero_char n h10 hn
    · push_neg at h10
      rw [natReprChars_step h10] at hrepr
      rcases hd : natReprChars (n / 10) with _ | ⟨c2, cs2⟩
      · exact absurd hd (natReprChars_ne_nil _)
      · rw [hd] at hrepr
        simp only [List.cons_append] at hrepr
        injection hrepr with h1 _
        subst h1
        exact ih (n / 10) (Nat.div_lt_self (by omega) (by omega)) (by omega) c2 cs2 hd

theorem digitsValue_append_singleton (xs : List Char) (c : Char) :
    digitsValue (xs ++ [c]) = 10 * digitsValue xs + (c.toNat - 48) := by
  unfold digitsValue
  rw [List.foldl_append]
  rfl

theorem digitsValue_natReprChars (n : Nat) : digitsValue (natReprChars n) = n := by
  induction n using Nat.strong_induction_on with
  | _ n ih =>
    by_cases h10 : n < 10
    · rw [natReprChars_small h10]
      unfold digitsValue
      simp [digitChar_toNat n h10]
    · push_neg at h10
      rw [natReprChars_step h10, digitsValue_append_singleton,
        ih (n / 10) (Nat.div_lt_self (by omega) (by omega)),
        digitChar_toNat (n % 10) (Nat.mod_lt n (by omega))]
      omega

theorem takeWhile_all_append (p : Char → Bool) :
    ∀ (ds rest : List Char), (∀ c ∈ ds, p c = true) →
      (∀ c, rest.head? = some c → p c = false) →
      (ds ++ rest).takeWhile p = ds ∧ (ds ++ rest).dropWhile p = rest := by
  intro ds
  induction ds with
  | nil =>
    intro rest _ hrest
    cases rest with
    | nil => simp
    | cons c r =>
      have := hrest c rfl
      simp [List.takeWhile_cons, List.dropWhile_cons, this]
  | cons d ds ih =>
    intro rest hall hrest
    have hd : p d = true := hall d (List.mem_cons_self d ds)
    have hrec := ih rest (fun c hc => hall c (List.mem_cons_of_mem d hc)) hrest
    simp [List.takeWhile_cons, List.dropWhile_cons, hd, hrec.1, hrec.2]

theorem dot_not_digit : ('.').isDigit = false := by decide

theorem dash_not_digit : ('-').isDigit = false := by decide

theorem plus_not_digit : ('+').isDigit = false := by decide

theorem parseNumField_repr (n : Nat) (rest : List Char)
    (hrest : ∀ c, rest.head? = some c → c.isDigit = false) :
    parseNumField (natReprChars n ++ rest) = some (n, rest) := by
  have hsplit := takeWhile_all_append Char.isDigit (natReprChars n) rest
    (natReprChars_all_digits n) hrest
  unfold parseNumField
  rw [hsplit.1, hsplit.2]
  rcases hd : natReprChars n with _ | ⟨c, cs⟩
  · exact absurd hd (natReprChars_ne_nil n)
  · have hcond : ¬ (c = '0' ∧ cs ≠ []) := by
      rintro ⟨hc0, hcs⟩
      by_cases h10 : n < 10
      · rw [natReprChars_small h10] at hd
        injection hd with _ h2
        exact hcs h2.symm
      · have hne := natReprChars_head_ne_zero n (by omega) c cs hd
        exact hne hc0
    show (if c = '0' ∧ cs ≠ [] then none
          else some (digitsValue (c :: cs), rest)) = some (n, rest)
    rw [if_neg hcond, ← hd, digitsValue_natReprChars n]

theorem string_data_append (a b : String) : (a ++ b).data = a.data ++ b.data := by
  cases a
  cases b
  rfl

theorem log2Aux_eq (fuel : Nat) : ∀ n, n ≤ fuel → log2Aux fuel n = Nat.log2 n := by
  induction fuel with
  | zero =>
    intro n hn
    have h0 : n = 0 := by omega
    subst h0
    rw [Nat.log2]
    norm_num
    rfl
  | succ fuel ih =>
    intro n hn
    show (if n < 2 then 0 else log2Aux fuel (n / 2) + 1) = Nat.log2 n
    rw [Nat.log2]
    rcases lt_or_le n 2 with h2 | h2
    · rw [if_pos h2, if_neg (by omega)]
    · rw [if_neg (by omega), if_pos h2, ih (n / 2) (by omega)]

theorem natLog2_eq (n : Nat) : natLog2 n = Nat.log2 n := log2Aux_eq n n le_rfl

theorem numberValue_id {m : Nat} (h : m < 2 ^ 53) : numberValue m = m := by
  unfold numberValue
  rw [if_pos h]

theorem numberValue_ge {m : Nat} (h : 2 ^ 53 ≤ m) : 2 ^ 53 ≤ numberValue m := by
  have hpos : (0 : Nat) < 2 ^ 53 := pow_pos (by norm_num) _
  have hm0 : m ≠ 0 := by omega
  have hlog : 53 ≤ m.log2 := (Nat.le_log2 hm0).mpr h
  have hpow : 2 ^ m.log2 ≤ m := Nat.log2_self_le hm0
  have hq : 2 ^ 52 ≤ m / 2 ^ (m.log2 - 52) := by
    have h1 : 2 ^ m.log2 / 2 ^ (m.log2 - 52) ≤ m / 2 ^ (m.log2 - 52) :=
      Nat.div_le_div_right hpow
    have h2 : 2 ^ m.log2 / 2 ^ (m.log2 - 52) = 2 ^ 52 := by
      rw [Nat.pow_div (by omega) (by norm_num)]
      congr 1
      omega
    omega
  have hkey : ∀ q : Nat, 2 ^ 52 ≤ q → 2 ^ 53 ≤ q * 2 ^ (m.log2 - 52) := by
    intro q hq2
    have he1 : 1 ≤ m.log2 - 52 := by omega
    calc (2 : Nat) ^ 53 = 2 ^ 52 * 2 ^ 1 := by norm_num
    _ ≤ q * 2 ^ (m.log2 - 52) :=
      Nat.mul_le_mul hq2 (Nat.pow_le_pow_right (by norm_num) he1)
  unfold numberValue
  simp only [natLog2_eq]
  rw [if_neg (by omega)]
  split
  · exact hkey _ hq
  · split
    · exact hkey _ (by omega)
    · split
      · exact hkey _ hq
      · exact hkey _ (by omega)

theorem candBelow_le (x p : Nat) : candBelow x p ≤ x := Nat.div_mul_le_self x p

theorem lt_candAbove (x p : Nat) (hp : 0 < p) : x < candAbove x p := by
  have h1 : x % p < p := Nat.mod_lt x hp
  have h2 : x / p * p + x % p = x := Nat.div_add_mod' x p
  unfold candAbove
  omega

theorem shortestCandAux_small (x : Nat) (hx : x < 2 ^ 53) :
    ∀ j, shortestCandAux x j = x := by
  intro j
  induction j with
  | zero => rfl
  | succ j ih =>
    have hp : 0 < 10 ^ (j + 1) := pow_pos (by norm_num) _
    have hb := candBelow_le x (10 ^ (j + 1))
    have ha := lt_candAbove x (10 ^ (j + 1)) hp
    have h1 : numberValue (candBelow x (10 ^ (j + 1))) = candBelow x (10 ^ (j + 1)) :=
      numberValue_id (by omega)
    have hne : numberValue (candAbove x (10 ^ (j + 1))) ≠ x := by
      rcases lt_or_le (candAbove x (10 ^ (j + 1))) (2 ^ 53) with hlt | hge
      · rw [numberValue_id hlt]
        omega
      · have := numberValue_ge hge
        omega
    simp only [shortestCandAux]
    rw [h1]
    by_cases hcb : candBelow x (10 ^ (j + 1)) = x
    · rw [if_pos hcb, if_neg hne]
      exact hcb
    · rw [if_neg hcb, if_neg hne]
      exact ih

theorem shortestDecimal_small {x : Nat} (hx : x < 2 ^ 53) : shortestDecimal x = x :=
  shortestCandAux_small x hx _

theorem jsNumChars_small {x : Nat} (hx : x < 2 ^ 53) : jsNumChars x = natReprChars x := by
  unfold jsNumChars
  rw [shortestDecimal_small hx, if_pos (lt_trans hx (by norm_num))]

theorem jsNumRepr_small {x : Nat} (hx : x < 2 ^ 53) : jsNumRepr x = natRepr x := by
  unfold jsNumRepr natRepr
  rw [jsNumChars_small hx]

theorem parseChars_release (M m p : Nat) :
    parseChars (natReprChars M ++ '.' :: (natReprChars m ++ '.' :: natReprChars p)) =
      some ⟨numberValue M, numberValue m, numberValue p, true, none, none⟩ := by
  have h1 : parseNumField (natReprChars M ++ '.' :: (natReprChars m ++ '.' :: natReprChars p))
      = some (M, '.' :: (natReprChars m ++ '.' :: natReprChars p)) :=
    parseNumField_repr _ _ (by intro c hc; simp at hc; subst hc; decide)
  have h2 : parseNumField (natReprChars m ++ '.' :: natReprChars p)
      = some (m, '.' :: natReprChars p) :=
    parseNumField_repr _ _ (by intro c hc; simp at hc; subst hc; decide)
  have h3 : parseNumField (natReprChars p) = some (p, []) := by
    have := parseNumField_repr p [] (by intro c hc; simp at hc)
    simpa using this
  simp [parseChars, h1, h2, h3, expectChar]

theorem parseChars_dev (M m p hgt : Nat) (cid : List Char)
    (hlen7 : 7 ≤ cid.length) (hlen9 : cid.length ≤ 9) (hhex : cid.all isHexChar = true) :
    parseChars (natReprChars M ++ '.' :: (natReprChars m ++ '.' :: (natReprChars p ++
        '-' :: 'd' :: 'e' :: 'v' :: '.' :: (natReprChars hgt ++ '+' :: cid)))) =
      some ⟨numberValue M, numberValue m, numberValue p, false,
        some (numberValue hgt), some (String.mk cid)⟩ := by
  have h1 : parseNumField (natReprChars M ++ '.' :: (natReprChars m ++ '.' ::
      (natReprChars p ++ '-' :: 'd' :: 'e' :: 'v' :: '.' :: (natReprChars hgt ++ '+' :: cid))))
      = some (M, '.' :: (natReprChars m ++ '.' ::
        (natReprChars p ++ '-' :: 'd' :: 'e' :: 'v' :: '.' :: (natReprChars hgt ++ '+' :: cid)))) :=
    parseNumField_repr _ _ (by intro c hc; simp at hc; subst hc; decide)
  have h2 : parseNumField (natReprChars m ++ '.' ::
      (natReprChars p ++ '-' :: 'd' :: 'e' :: 'v' :: '.' :: (natReprChars hgt ++ '+' :: cid)))
      = some (m, '.' :: (natReprChars p ++ '-' :: 'd' :: 'e' :: 'v' :: '.' ::
        (natReprChars hgt ++ '+' :: cid))) :=
    parseNumField_repr _ _ (by intro c hc; simp at hc; subst hc; decide)
  have h3 : parseNumField (natReprChars p ++ '-' :: 'd' :: 'e' :: 'v' :: '.' ::
      (natReprChars hgt ++ '+' :: cid))
      = some (p, '-' :: 'd' :: 'e' :: 'v' :: '.' :: (natReprChars hgt ++ '+' :: cid)) :=
    parseNumField_repr _ _ (by intro c hc; simp at hc; subst hc; decide)
  have h4 := takeWhile_all_append Char.isDigit (natReprChars hgt) ('+' :: cid)
    (natReprChars_all_digits hgt) (by intro c hc; simp at hc; subst hc; decide)
  have hhex2 : ∀ x ∈ cid, isHexChar x = true := by simpa using hhex
  simp only [parseChars, h1, h2, h3, expectChar, dropDevDot, if_true, reduceCtorEq]
  rw [h4.1, h4.2]
  rcases hd : natReprChars hgt with _ | ⟨d, ds⟩
  · exact absurd hd (natReprChars_ne_nil hgt)
  · have hval : digitsValue (d :: ds) = hgt := by
      rw [← hd, digitsValue_natReprChars]
    simp [expectChar, hlen7, hlen9, hhex2, hval]
    exact hhex2

theorem parse_shape (s : String) (v : SemanticVersion) (h : SemanticVersion.parse s = some v) :
    (v.isRelease = true ∧ v.commitHeight = none ∧ v.commitID = none) ∨
    (v.isRelease = false ∧ ∃ hgt c, v.commitHeight = some hgt ∧ v.commitID = some c ∧
      7 ≤ c.data.length ∧ c.data.length ≤ 9 ∧ c.data.all isHexChar = true) := by
  unfold SemanticVersion.parse parseChars at h
  repeat' split at h
  any_goals exact Option.noConfusion h
  · have hv := Option.some.inj h
    subst hv
    left
    exact ⟨rfl, rfl, rfl⟩
  · next hcond =>
    have hv := Option.some.inj h
    subst hv
    right
    refine ⟨rfl, _, _, rfl, rfl, ?_, ?_, ?_⟩
    · exact hcond.1
    · exact hcond.2.1
    · exact hcond.2.2

theorem toString_release_data (v : SemanticVersion) (hrel : v.isRelease = true)
    (hM : v.major < 2 ^ 53) (hmi : v.minor < 2 ^ 53) (hpa : v.patch < 2 ^ 53) :
    ∃ t, SemanticVersion.toString v = some t ∧
      t.data = natReprChars v.major ++ '.' :: (natReprChars v.minor ++ '.' :: natReprChars v.patch) := by
  refine ⟨natRepr v.major ++ "." ++ natRepr v.minor ++ "." ++ natRepr v.patch, ?_, ?_⟩
  · unfold SemanticVersion.toString
    rw [hrel]
    simp [jsNumRepr_small hM, jsNumRepr_small hmi, jsNumRepr_small hpa]
  · have hdot : (".").data = ['.'] := rfl
    simp [natRepr, string_data_append, hdot]

theorem toString_dev_data (v : SemanticVersion) (hrel : v.isRelease = false)
    (hgt : Nat) (c : String) (hh : v.commitHeight = some hgt) (hc : v.commitID = some c)
    (hgt0 : hgt ≠ 0) (hc0 : c ≠ "")
    (hM : v.major < 2 ^ 53) (hmi : v.minor < 2 ^ 53) (hpa : v.patch < 2 ^ 53)
    (hgtb : hgt < 2 ^ 53) :
    ∃ t, SemanticVersion.toString v = some t ∧
      t.data = natReprChars v.major ++ '.' :: (natReprChars v.minor ++ '.' ::
        (natReprChars v.patch ++ '-' :: 'd' :: 'e' :: 'v' :: '.' ::
          (natReprChars hgt ++ '+' :: c.data))) := by
  refine ⟨natRepr v.major ++ "." ++ natRepr v.minor ++ "." ++ natRepr v.patch ++
    "-dev." ++ natRepr hgt ++ "+" ++ c, ?_, ?_⟩
  · unfold SemanticVersion.toString
    rw [hrel, hh, hc]
    simp [hgt0, hc0, jsNumRepr_small hM, jsNumRepr_small hmi, jsNumRepr_small hpa,
      jsNumRepr_small hgtb]
  · have hdot : (".").data = ['.'] := rfl
    have hdev : ("-dev.").data = ['-', 'd', 'e', 'v', '.'] := rfl
    have hplus : ("+").data = ['+'] := rfl
    simp [natRepr, string_data_append, hdot, hdev, hplus]

/-- C6: two counterexamples to the round-trip claim. `"0.0.0-dev.0+aaaaaaa"`
parses with commit height `0`, but `toString` fails its assertion (the
height `0` is falsy in `this.commitHeight && this.commitID`). And
`"1000000000000000000000.0.0"` parses with major `10^21` (an exactly
representable double), but `toString` prints that field in exponential
notation, yielding `"1e+21.0.0"`, which the parse regex rejects. -/
theorem parse_toString_roundtrip_counterexample :
    (SemanticVersion.parse "0.0.0-dev.0+aaaaaaa" =
        some ⟨0, 0, 0, false, some 0, some "aaaaaaa"⟩ ∧
      SemanticVersion.toString ⟨0, 0, 0, false, some 0, some "aaaaaaa"⟩ = none) ∧
    (SemanticVersion.parse "1000000000000000000000.0.0" =
        some ⟨10 ^ 21, 0, 0, true, none, none⟩ ∧
      SemanticVersion.toString ⟨10 ^ 21, 0, 0, true, none, none⟩ = some "1e+21.0.0" ∧
      SemanticVersion.parse "1e+21.0.0" = none) :=
  ⟨⟨by rfl, by rfl⟩, by rfl, by rfl, by rfl⟩

/-- C6 (amended): for every string accepted by `SemanticVersion.parse` whose
numeric fields all lie below 2^53 (so that `Number.prototype.toString`
prints them as their exact decimal numerals) and whose `commitHeight` is
not `some 0`, `toString` succeeds and `parse` of the result gives back the
original version. Outside these bounds the round trip can fail: commit
height `0` fails the assert, and a field at or above 10^21 prints in
exponential notation that the parse regex rejects. -/
theorem parse_toString_roundtrip (s : String) (v : SemanticVersion)
    (h : SemanticVersion.parse s = some v)
    (hM : v.major < 2 ^ 53) (hmi : v.minor < 2 ^ 53) (hpa : v.patch < 2 ^ 53)
    (hh0 : v.commitHeight ≠ some 0) (hhb : v.commitHeight.getD 0 < 2 ^ 53) :
    ∃ t, SemanticVersion.toString v = some t ∧ SemanticVersion.parse t = some v := by
  rcases parse_shape s v h with ⟨hrel, hch, hci⟩ | ⟨hrel, hgt, c, hch, hci, hlen7, hlen9, hhex⟩
  · obtain ⟨t, ht, hd⟩ := toString_release_data v hrel hM hmi hpa
    refine ⟨t, ht, ?_⟩
    obtain ⟨M, m, p, rel, ch, ci⟩ := v
    simp only at hrel hch hci hM hmi hpa
    subst hrel; subst hch; subst hci
    unfold SemanticVersion.parse
    rw [hd, parseChars_release, numberValue_id hM, numberValue_id hmi, numberValue_id hpa]
  · have hgt0 : hgt ≠ 0 := by
      intro he
      subst he
      exact hh0 hch
    have hgtb : hgt < 2 ^ 53 := by
      rw [hch] at hhb
      simpa using hhb
    have hc0 : c ≠ "" := by
      intro he
      rw [he] at hlen7
      exact absurd hlen7 (by decide)
    obtain ⟨t, ht, hd⟩ := toString_dev_data v hrel hgt c hch hci hgt0 hc0 hM hmi hpa hgtb
    refine ⟨t, ht, ?_⟩
    obtain ⟨M, m, p, rel, ch, ci⟩ := v
    simp only at hrel hch hci hM hmi hpa
    subst hrel; subst hch; subst hci
    unfold SemanticVersion.parse
    rw [hd, parseChars_dev M m p hgt c.data hlen7 hlen9 hhex,
      numberValue_id hM, numberValue_id hmi, numberValue_id hpa, numberValue_id hgtb]

theorem parse_toString_roundtrip_witness :
    SemanticVersion.parse "1.2.3-dev.4+abcdef0" =
        some ⟨1, 2, 3, false, some 4, some "abcdef0"⟩ ∧
    ∃ t, SemanticVersion.toString ⟨1, 2, 3, false, some 4, some "abcdef0"⟩ = some t ∧
      SemanticVersion.parse t = some ⟨1, 2, 3, false, some 4, some "abcdef0"⟩ :=
  ⟨by rfl, parse_toString_roundtrip "1.2.3-dev.4+abcdef0"
    ⟨1, 2, 3, false, some 4, some "abcdef0"⟩ (by rfl) (by decide) (by decide)
    (by decide) (by decide) (by decide)⟩

/-- C7: counterexample. `"9007199254740993.0.0"` carries a major field of
2^53 + 1, outside the safe-integer range, yet `SemanticVersion.parse` does
not return `null`: `parseInt` rounds the field to the nearest double and
parsing succeeds with major 9007199254740992. -/
theorem parse_oversize_counterexample :
    SemanticVersion.parse "9007199254740993.0.0" =
      some ⟨9007199254740992, 0, 0, true, none, none⟩ := by
  rfl

/-- C7 (amended): `SemanticVersion.parse` has no safe-integer check and
never fails on numeric size: the decimal numeral of every natural number
below the double overflow threshold 2^1024 - 2^970 (beyond which JS
`parseInt` returns `Infinity`, which `Nat` cannot express) parses
successfully in every field, each field rounded to the nearest double by
`numberValue` rather than rejected with `null`. -/
theorem parse_no_numeric_size_limit (M m p : Nat)
    (hM : M < 2 ^ 1024 - 2 ^ 970) (hm : m < 2 ^ 1024 - 2 ^ 970)
    (hp : p < 2 ^ 1024 - 2 ^ 970) :
    SemanticVersion.parse (natRepr M ++ "." ++ natRepr m ++ "." ++ natRepr p) =
      some ⟨numberValue M, numberValue m, numberValue p, true, none, none⟩ := by
  have hd : (natRepr M ++ "." ++ natRepr m ++ "." ++ natRepr p).data
      = natReprChars M ++ '.' :: (natReprChars m ++ '.' :: natReprChars p) := by
    have hdot : (".").data = ['.'] := rfl
    simp [natRepr, string_data_append, hdot]
  unfold SemanticVersion.parse
  rw [hd, parseChars_release]

theorem parse_no_numeric_size_limit_witness :
    SemanticVersion.parse "18014398509481985.0.0" =
      some ⟨18014398509481984, 0, 0, true, none, none⟩ := by
  have h := parse_no_numeric_size_limit 18014398509481985 0 0
    (by norm_num) (by norm_num) (by norm_num)
  have he : ("18014398509481985.0.0" : String)
      = natRepr 18014398509481985 ++ "." ++ natRepr 0 ++ "." ++ natRepr 0 := by rfl
  rw [he, h]
  rfl

end ReleaseWorker
